import Mathlib

/-!
Verification of the standalone partitioned key-value compute engine
(`arch/api/standalone/eggroll.py`).

The engine stores entries as byte strings inside per-partition LMDB
databases.  We embed the engine shallowly:

* bytes are `List Nat` (each element a byte value);
* an LMDB partition is a strictly key-sorted association list, the order
  being byte-lexicographic (LMDB's memcmp order);
* pickle (`c_pickle.dumps` / `c_pickle.loads`) is modelled by a concrete
  injective self-describing encoding of a small Python-object universe;
* `hashlib.sha1` is implemented bit-faithfully;
* the jump-consistent-hash loop of `_hash_key_to_partition` is embedded
  with Python's float arithmetic modelled as exact rational arithmetic
  (the claims proved about it are robust to rounding: they use only
  sign, truncation and comparison facts that hold for any rounding).
-/

/-- Byte strings: LMDB keys and values, pickle payloads. -/
abbrev Bytes := List Nat

/-- Byte-lexicographic strict order on byte strings, exactly LMDB's key
order (`memcmp`, with a proper prefix sorting first). -/
def blt : Bytes → Bytes → Bool
  | [], [] => false
  | [], _ :: _ => true
  | _ :: _, [] => false
  | a :: as, b :: bs => if a < b then true else if b < a then false else blt as bs

theorem blt_irrefl (a : Bytes) : blt a a = false := by
  induction a with
  | nil => rfl
  | cons x xs ih => simp [blt, ih]

theorem blt_trans {a b c : Bytes} (h₁ : blt a b = true) (h₂ : blt b c = true) :
    blt a c = true := by
  induction a generalizing b c with
  | nil =>
    cases c with
    | nil =>
      cases b with
      | nil => exact h₁
      | cons y ys => simp [blt] at h₂
    | cons z zs => simp [blt]
  | cons x xs ih =>
    cases b with
    | nil => simp [blt] at h₁
    | cons y ys =>
      cases c with
      | nil => simp [blt] at h₂
      | cons z zs =>
        simp only [blt] at h₁ h₂ ⊢
        rcases Nat.lt_trichotomy x y with hxy | hxy | hxy
        · rcases Nat.lt_trichotomy y z with hyz | hyz | hyz
          · simp [Nat.lt_trans hxy hyz]
          · subst hyz; simp [hxy]
          · simp [hyz, Nat.lt_asymm hyz] at h₂
        · subst hxy
          rcases Nat.lt_trichotomy x z with hxz | hxz | hxz
          · simp [hxz]
          · subst hxz
            simp only [Nat.lt_irrefl, if_false] at h₁ h₂ ⊢
            exact ih h₁ h₂
          · simp [hxz, Nat.lt_asymm hxz] at h₂
        · simp [hxy, Nat.lt_asymm hxy] at h₁

theorem blt_total (a b : Bytes) : blt a b = true ∨ a = b ∨ blt b a = true := by
  induction a generalizing b with
  | nil =>
    cases b with
    | nil => exact Or.inr (Or.inl rfl)
    | cons y ys => exact Or.inl (by simp [blt])
  | cons x xs ih =>
    cases b with
    | nil => exact Or.inr (Or.inr (by simp [blt]))
    | cons y ys =>
      rcases Nat.lt_trichotomy x y with h | h | h
      · exact Or.inl (by simp [blt, h])
      · subst h
        rcases ih ys with h' | h' | h'
        · exact Or.inl (by simp [blt, h'])
        · exact Or.inr (Or.inl (by rw [h']))
        · exact Or.inr (Or.inr (by simp [blt, h']))
      · exact Or.inr (Or.inr (by simp [blt, h]))

theorem blt_asymm {a b : Bytes} (h : blt a b = true) : blt b a = false := by
  by_contra hc
  have hba : blt b a = true := by
    cases hcase : blt b a with
    | false => exact absurd hcase hc
    | true => rfl
  have := blt_trans h hba
  rw [blt_irrefl] at this
  exact Bool.false_ne_true this

theorem blt_ne {a b : Bytes} (h : blt a b = true) : a ≠ b := by
  intro he; subst he; rw [blt_irrefl] at h; exact Bool.false_ne_true h

/-! ### Pickle model

`c_pickle.dumps` / `c_pickle.loads` (the canonical object-serialization
scheme of the spec) are modelled by a concrete injective self-describing
encoding over a small universe of Python objects.  The engine treats the
encoded bytes as opaque, so any injective encoding with
`loads (dumps x) = x` is a faithful model of the library contract. -/

inductive PyObj
  | pyNone : PyObj
  | pyInt : Int → PyObj
  | pyStr : Bytes → PyObj
  deriving DecidableEq, Repr

/-- Encode an integer as a natural number (sign interleaving). -/
def intCode (n : Int) : Nat :=
  if n < 0 then 2 * (-n).toNat + 1 else 2 * n.toNat

/-- Model of `c_pickle.dumps`: tag, then a self-delimiting payload. -/
def dumps : PyObj → Bytes
  | .pyNone => [0]
  | .pyInt n => [1, intCode n]
  | .pyStr s => 2 :: s.length :: s

/-- Model of `c_pickle.loads`; fails (Python: raises) on bytes that are
not the encoding of an object. -/
def loads : Bytes → Option PyObj
  | [0] => some .pyNone
  | [1, c] => some (.pyInt (if c % 2 = 1 then -((c / 2 : Nat) : Int) else ((c / 2 : Nat) : Int)))
  | 2 :: len :: s => if s.length = len then some (.pyStr s) else none
  | _ => none

theorem loads_dumps (x : PyObj) : loads (dumps x) = some x := by
  cases x with
  | pyNone => rfl
  | pyInt n =>
    simp only [dumps, intCode]
    by_cases h : n < 0
    · rw [if_pos h]
      have h1 : (2 * (-n).toNat + 1) % 2 = 1 := by omega
      have h2 : (2 * (-n).toNat + 1) / 2 = (-n).toNat := by omega
      have h3 : (((-n).toNat : Nat) : Int) = -n := Int.toNat_of_nonneg (by omega)
      simp [loads, h1, h2, h3]
    · rw [if_neg h]
      have h1 : (2 * n.toNat) % 2 = 0 := by omega
      have h2 : (2 * n.toNat) / 2 = n.toNat := by omega
      have h3 : ¬((2 * n.toNat) % 2 = 1) := by omega
      simp only [loads, h2, if_neg h3]
      rw [Int.toNat_of_nonneg (le_of_not_lt h)]
  | pyStr s => simp [dumps, loads]

theorem dumps_injective {x y : PyObj} (h : dumps x = dumps y) : x = y := by
  have := loads_dumps x
  rw [h, loads_dumps] at this
  exact (Option.some_injective _ this).symm

/-- UTF-8 bytes of a string; all strings appearing in the engine's meta
keys are ASCII, where UTF-8 bytes coincide with the code points. -/
def strBytes (s : String) : Bytes := s.data.map Char.toNat

theorem char_toNat_injective : Function.Injective Char.toNat := by
  intro a b hab
  exact Char.eq_of_val_eq (UInt32.eq_of_toBitVec_eq (BitVec.eq_of_toNat_eq hab))

theorem strBytes_injective {s t : String} (h : strBytes s = strBytes t) : s = t := by
  have hd : s.data = t.data :=
    List.map_injective_iff.mpr char_toNat_injective h
  cases s; cases t; exact congrArg String.mk hd

/-! ### SHA-1 (`hashlib.sha1`), implemented bit-faithfully on byte lists -/

/-- 32-bit left rotation. -/
def rotl32 (n x : Nat) : Nat := ((x <<< n) ||| (x >>> (32 - n))) % 2 ^ 32

/-- The SHA-1 round function for round `t`. -/
def sha1F (t b c d : Nat) : Nat :=
  if t < 20 then (b &&& c) ||| ((b ^^^ 0xffffffff) &&& d)
  else if t < 40 then b ^^^ c ^^^ d
  else if t < 60 then (b &&& c) ||| (b &&& d) ||| (c &&& d)
  else b ^^^ c ^^^ d

/-- The SHA-1 round constant for round `t`. -/
def sha1K (t : Nat) : Nat :=
  if t < 20 then 0x5a827999
  else if t < 40 then 0x6ed9eba1
  else if t < 60 then 0x8f1bbcdc
  else 0xca62c1d6

/-- Big-endian 8-byte encoding (for the padded bit length). -/
def be64 (n : Nat) : Bytes :=
  [n >>> 56 % 256, n >>> 48 % 256, n >>> 40 % 256, n >>> 32 % 256,
   n >>> 24 % 256, n >>> 16 % 256, n >>> 8 % 256, n % 256]

/-- SHA-1 padding: `0x80`, zeros to 56 mod 64, then the bit length. -/
def sha1Pad (msg : Bytes) : Bytes :=
  msg ++ [0x80] ++ List.replicate ((119 - msg.length % 64) % 64) 0 ++ be64 (8 * msg.length)

/-- Split into 64-byte blocks (`fuel` bounds the number of blocks;
`l.length` always suffices since each step drops 64 > 0 bytes of a
non-empty list). -/
def chunks64Go (fuel : Nat) (l : Bytes) : List Bytes :=
  match fuel with
  | 0 => []
  | fuel + 1 => if l = [] then [] else l.take 64 :: chunks64Go fuel (l.drop 64)

/-- Split into 64-byte blocks. -/
def chunks64 (l : Bytes) : List Bytes := chunks64Go l.length l

/-- Big-endian 32-bit words from bytes. -/
def wordsBE : Bytes → List Nat
  | b0 :: b1 :: b2 :: b3 :: rest =>
    ((b0 % 256) <<< 24 ||| (b1 % 256) <<< 16 ||| (b2 % 256) <<< 8 ||| (b3 % 256)) :: wordsBE rest
  | _ => []

/-- Extend the 16 message words to 80 (appends `k` more words). -/
def sha1Extend (w : List Nat) : Nat → List Nat
  | 0 => w
  | k + 1 =>
    let t := w.length
    let x := rotl32 1 ((w.getD (t - 3) 0) ^^^ (w.getD (t - 8) 0) ^^^
                       (w.getD (t - 14) 0) ^^^ (w.getD (t - 16) 0))
    sha1Extend (w ++ [x]) k

/-- One SHA-1 round: update the five working registers. -/
def sha1Round (abcde : Nat × Nat × Nat × Nat × Nat) (tw : Nat × Nat) :
    Nat × Nat × Nat × Nat × Nat :=
  let (a, b, c, d, e) := abcde
  let (t, w) := tw
  let tmp := (rotl32 5 a + sha1F t b c d + e + sha1K t + w) % 2 ^ 32
  (tmp, a, rotl32 30 b, c, d)

/-- Process one 64-byte block. -/
def sha1Block (h : Nat × Nat × Nat × Nat × Nat) (block : Bytes) :
    Nat × Nat × Nat × Nat × Nat :=
  let ws := sha1Extend (wordsBE block) 64
  let (a, b, c, d, e) := ((List.range 80).zip ws).foldl sha1Round h
  ((h.1 + a) % 2 ^ 32, (h.2.1 + b) % 2 ^ 32, (h.2.2.1 + c) % 2 ^ 32,
   (h.2.2.2.1 + d) % 2 ^ 32, (h.2.2.2.2 + e) % 2 ^ 32)

/-- Big-endian bytes of one 32-bit word. -/
def wordBytesBE (w : Nat) : Bytes := [w >>> 24 % 256, w >>> 16 % 256, w >>> 8 % 256, w % 256]

/-- `hashlib.sha1(msg).digest()`: the 20-byte SHA-1 digest. -/
def sha1 (msg : Bytes) : Bytes :=
  let h := (chunks64 (sha1Pad msg)).foldl sha1Block
    (0x67452301, 0xefcdab89, 0x98badcfe, 0x10325476, 0xc3d2e1f0)
  wordBytesBE h.1 ++ wordBytesBE h.2.1 ++ wordBytesBE h.2.2.1 ++
    wordBytesBE h.2.2.2.1 ++ wordBytesBE h.2.2.2.2

/-- `int.from_bytes(bs, byteorder='little', signed=False)`. -/
def natFromBytesLE (bs : Bytes) : Nat := bs.foldr (fun b acc => acc * 256 + b % 256) 0

/-! ### `_hash_key_to_partition` (jump-consistent hash)

The source hashes the key with SHA-1, reads the digest as a little-endian
integer, checks `partitions < 1`, then runs the jump-hash loop

    b, j = -1, 0
    while j < partitions:
        b = int(j)
        _key = (_key * 2862933555777941757 + 1) & 0xffffffffffffffff
        j = float(b + 1) * (float(1 << 31) / float((_key >> 33) + 1))

Python's float arithmetic is modelled as exact rational arithmetic.  The
value of `j` is always the fraction `((b + 1) * 2^31) / (s + 1)` (with
`s = _key >> 33`) or the initial `0`, so the loop state carries `j` as an
unreduced numerator/denominator pair `(jn, jd)` with `jd > 0`:
`j < partitions` is `jn < partitions * jd` and `int(j)` (truncation
toward zero, applied only to non-negative values) is `jn / jd` in natural
division.  The properties proved about the loop (result range, error
behaviour) depend only on truncation and comparison facts that hold
under any rounding of `j`. -/

/-- The loop of `_hash_key_to_partition`.  `b` strictly increases every
iteration and the loop runs only while `int(j) < partitions`, so
`fuel = partitions` iterations always suffice to reach the exit
condition. -/
def jumpLoop (fuel : Nat) (key : Nat) (b : Int) (jn jd : Nat) (partitions : Int) : Int :=
  match fuel with
  | 0 => b
  | fuel + 1 =>
    if (jn : Int) < partitions * jd then
      let b' := ((jn / jd : Nat) : Int)
      let key' := (key * 2862933555777941757 + 1) % 2 ^ 64
      jumpLoop fuel key' b' ((jn / jd + 1) * 2 ^ 31) ((key' >>> 33) + 1) partitions
    else b

/-- `_hash_key_to_partition(key, partitions)`. -/
def hash_key_to_partition (key : Bytes) (partitions : Int) : Except String Int :=
  let k := natFromBytesLE (sha1 key)
  if partitions < 1 then .error "partitions must be a positive number"
  else .ok (jumpLoop partitions.toNat k (-1) 0 1 partitions)

theorem jumpLoop_range {N : Int} (hN : 0 < N) :
    ∀ (fuel : Nat) (key : Nat) (b : Int) (jn jd : Nat), 0 < jd → 0 ≤ b → b < N →
      0 ≤ jumpLoop fuel key b jn jd N ∧ jumpLoop fuel key b jn jd N < N := by
  intro fuel
  induction fuel with
  | zero => intro key b jn jd _ hb0 hbN; exact ⟨hb0, hbN⟩
  | succ fuel ih =>
    intro key b jn jd hjd hb0 hbN
    rw [jumpLoop]
    split
    case isTrue h =>
      apply ih
      · exact Nat.succ_pos _
      · exact Int.ofNat_nonneg _
      · have hn : jn < N.toNat * jd := by
          have hNt : ((N.toNat : Nat) : Int) = N := Int.toNat_of_nonneg (le_of_lt hN)
          have : (jn : Int) < (N.toNat : Int) * (jd : Int) := by rw [hNt]; exact h
          exact_mod_cast this
        have hdiv : jn / jd < N.toNat := Nat.div_lt_of_lt_mul (by rwa [Nat.mul_comm] at hn)
        have : ((jn / jd : Nat) : Int) < ((N.toNat : Nat) : Int) := by exact_mod_cast hdiv
        rw [Int.toNat_of_nonneg (le_of_lt hN)] at this
        exact this
    case isFalse => exact ⟨hb0, hbN⟩

/-- Range of `_hash_key_to_partition` for a positive partition count. -/
theorem hash_range (key : Bytes) (N : Int) (hN : 0 < N) :
    ∃ b, hash_key_to_partition key N = .ok b ∧ 0 ≤ b ∧ b < N := by
  unfold hash_key_to_partition
  rw [if_neg (by omega)]
  refine ⟨_, rfl, ?_⟩
  obtain ⟨m, hm⟩ : ∃ m, N.toNat = m + 1 := ⟨N.toNat - 1, by omega⟩
  rw [hm]
  rw [jumpLoop]
  rw [if_pos (by simpa using hN)]
  exact jumpLoop_range hN _ _ _ _ _ (Nat.succ_pos _) (Int.ofNat_nonneg _)
    (by simpa using hN)

/-- With a single partition every key lands in partition 0. -/
theorem hash_key_one (key : Bytes) : hash_key_to_partition key 1 = .ok 0 := by
  obtain ⟨b, hb, hb0, hb1⟩ := hash_range key 1 one_pos
  have hb' : b = 0 := by omega
  rw [hb, hb']

/-- `_hash_key_to_partition` raises `ValueError` when `partitions < 1`. -/
theorem hash_error {key : Bytes} {N : Int} (hN : N < 1) :
    hash_key_to_partition key N = .error "partitions must be a positive number" := by
  unfold hash_key_to_partition
  rw [if_pos hN]

/-- Partition index as the natural number used to index `txn_map` /
`range(partitions)`; lossless because the hash result is in `[0, N)`. -/
def hashPartN (key : Bytes) (partitions : Nat) : Except String Nat :=
  (hash_key_to_partition key (partitions : Int)).map Int.toNat

theorem hashPartN_range (key : Bytes) {N : Nat} (hN : 0 < N) :
    ∃ p, hashPartN key N = .ok p ∧ p < N := by
  obtain ⟨b, hb, hb0, hbN⟩ := hash_range key (N : Int) (by exact_mod_cast hN)
  exact ⟨b.toNat, by rw [hashPartN, hb]; rfl, by omega⟩

theorem hashPartN_one (key : Bytes) : hashPartN key 1 = .ok 0 := by
  rw [hashPartN, Nat.cast_one, hash_key_one]; rfl

/-! ### LMDB partition model

One partition database is a strictly key-sorted association list (LMDB
stores entries sorted by `memcmp` on keys, keys unique).  `txn.put` with
default flags inserts or overwrites and returns `True`; `txn.get` returns
the value or `None`; a cursor iterates in key order. -/

/-- One stored entry: raw key bytes and raw value bytes. -/
abbrev Entry := Bytes × Bytes

/-- Strict key-sortedness of a partition (LMDB invariant). -/
abbrev PartSorted (part : List Entry) : Prop :=
  List.Pairwise (fun e₁ e₂ => blt e₁.1 e₂.1 = true) part

/-- `txn.get(k)`. -/
def lmdbGet : List Entry → Bytes → Option Bytes
  | [], _ => none
  | (k', v') :: rest, k => if k = k' then some v' else lmdbGet rest k

/-- `txn.put(k, v)` (default flags: insert or overwrite). -/
def lmdbPut : List Entry → Bytes → Bytes → List Entry
  | [], k, v => [(k, v)]
  | (k', v') :: rest, k, v =>
    if blt k k' then (k, v) :: (k', v') :: rest
    else if k = k' then (k, v) :: rest
    else (k', v') :: lmdbPut rest k v

theorem lmdbGet_put_same (part : List Entry) (k : Bytes) (v : Bytes) :
    lmdbGet (lmdbPut part k v) k = some v := by
  induction part with
  | nil => simp [lmdbPut, lmdbGet]
  | cons e rest ih =>
    obtain ⟨k', v'⟩ := e
    by_cases h1 : blt k k'
    · simp [lmdbPut, h1, lmdbGet]
    · by_cases h2 : k = k'
      · subst h2
        simp [lmdbPut, h1, lmdbGet, blt_irrefl]
      · simp [lmdbPut, h1, h2, lmdbGet, ih]

theorem lmdbGet_put_other (part : List Entry) (k k₀ : Bytes) (v : Bytes) (hne : k₀ ≠ k) :
    lmdbGet (lmdbPut part k v) k₀ = lmdbGet part k₀ := by
  induction part with
  | nil => simp [lmdbPut, lmdbGet, hne]
  | cons e rest ih =>
    obtain ⟨k', v'⟩ := e
    by_cases h1 : blt k k'
    · simp [lmdbPut, h1, lmdbGet, hne]
    · by_cases h2 : k = k'
      · subst h2; simp [lmdbPut, h1, lmdbGet, hne, blt_irrefl]
      · by_cases h3 : k₀ = k'
        · simp [lmdbPut, h1, h2, lmdbGet, h3]
        · simp [lmdbPut, h1, h2, lmdbGet, h3, ih]

theorem mem_lmdbPut {part : List Entry} {k v} {e : Entry}
    (he : e ∈ lmdbPut part k v) : e = (k, v) ∨ e ∈ part := by
  induction part with
  | nil => simp [lmdbPut] at he; simp [he]
  | cons e' rest ih =>
    obtain ⟨k', v'⟩ := e'
    by_cases h1 : blt k k'
    · rw [lmdbPut, if_pos h1] at he
      rcases List.mem_cons.mp he with he | he
      · left; exact he
      · right; exact he
    · by_cases h2 : k = k'
      · rw [lmdbPut, if_neg h1, if_pos h2] at he
        rcases List.mem_cons.mp he with he | he
        · left; exact he
        · right; exact List.mem_cons_of_mem _ he
      · rw [lmdbPut, if_neg h1, if_neg h2] at he
        rcases List.mem_cons.mp he with he | he
        · right; exact he ▸ List.mem_cons_self _ _
        · rcases ih he with h | h
          · left; exact h
          · right; exact List.mem_cons_of_mem _ h

theorem lmdbPut_sorted {part : List Entry} (hs : PartSorted part) (k v) :
    PartSorted (lmdbPut part k v) := by
  induction part with
  | nil => simp [lmdbPut]
  | cons e rest ih =>
    obtain ⟨k', v'⟩ := e
    obtain ⟨hhead, htail⟩ := List.pairwise_cons.mp hs
    by_cases h1 : blt k k'
    · rw [lmdbPut, if_pos h1]
      refine List.pairwise_cons.mpr ⟨?_, List.pairwise_cons.mpr ⟨hhead, htail⟩⟩
      intro e' he'
      rcases List.mem_cons.mp he' with he' | he'
      · subst he'; exact h1
      · exact blt_trans h1 (hhead e' he')
    · by_cases h2 : k = k'
      · subst h2
        rw [lmdbPut, if_neg h1, if_pos rfl]
        exact List.pairwise_cons.mpr ⟨hhead, htail⟩
      · rw [lmdbPut, if_neg h1, if_neg h2]
        refine List.pairwise_cons.mpr ⟨?_, ih htail⟩
        intro e' he'
        rcases mem_lmdbPut he' with h | h
        · subst h
          rcases blt_total k' k with hlt | heq | hgt
          · exact hlt
          · exact absurd heq.symm h2
          · exact absurd hgt (by simp [h1])
        · exact hhead e' h

theorem lmdbGet_eq_none {part : List Entry} {k : Bytes}
    (h : ∀ e ∈ part, e.1 ≠ k) : lmdbGet part k = none := by
  induction part with
  | nil => rfl
  | cons e rest ih =>
    obtain ⟨k', v'⟩ := e
    have hk : k ≠ k' := fun hkk => h (k', v') (List.mem_cons_self _ _) hkk.symm
    rw [lmdbGet, if_neg hk]
    exact ih (fun e he => h e (List.mem_cons_of_mem _ he))

theorem lmdbGet_mem {part : List Entry} {k : Bytes} {v : Bytes}
    (h : lmdbGet part k = some v) : (k, v) ∈ part := by
  induction part with
  | nil => simp [lmdbGet] at h
  | cons e rest ih =>
    obtain ⟨k', v'⟩ := e
    by_cases hk : k = k'
    · subst hk
      rw [lmdbGet, if_pos rfl] at h
      injection h with h
      subst h
      exact List.mem_cons_self _ _
    · rw [lmdbGet, if_neg hk] at h
      exact List.mem_cons_of_mem _ (ih h)

theorem mem_lmdbGet {part : List Entry} (hs : PartSorted part) {k v}
    (h : (k, v) ∈ part) : lmdbGet part k = some v := by
  induction part with
  | nil => simp at h
  | cons e rest ih =>
    obtain ⟨k', v'⟩ := e
    obtain ⟨hhead, htail⟩ := List.pairwise_cons.mp hs
    rcases List.mem_cons.mp h with he | he
    · injection he with h1 h2
      subst h1; subst h2
      rw [lmdbGet, if_pos rfl]
    · have hk : k ≠ k' := by
        intro hkk; subst hkk
        have := hhead (k, v) he
        simp [blt_irrefl] at this
      rw [lmdbGet, if_neg hk]
      exact ih htail he

/-! ### `_DTable._merge`: k-way merge of sorted partition cursors

The source keeps a min-heap of `[key, value, cursorId, cursor]` tuples and
repeatedly emits the heap root, advancing that cursor (`heapreplace` /
`heappop`).  Semantically each step extracts the entry with the minimal
current key among the open cursors; `popMin` below computes exactly that
step (exhausted cursors are closed and dropped).  On a key tie the heap
orders by value bytes and then by cursor id; co-located partitions never
hold a common key, so ties do not occur in any reachable state, and
`popMin` keeps the earliest cursor on a tie. -/

/-- One heap step: extract the minimal current entry among the cursors,
returning it together with the advanced cursor state. -/
def popMin : List (List Entry) → Option (Entry × List (List Entry))
  | [] => none
  | [] :: rest => popMin rest
  | (e :: tl) :: rest =>
    match popMin rest with
    | none => some (e, tl :: rest)
    | some (e', rest') =>
      if blt e'.1 e.1 then some (e', (e :: tl) :: rest') else some (e, tl :: rest)

/-- Total number of entries still held by the cursors. -/
def totLen (ls : List (List Entry)) : Nat := (ls.map List.length).sum

/-- Entry `x` is still held by some cursor. -/
def memAll (x : Entry) (ls : List (List Entry)) : Prop := ∃ l ∈ ls, x ∈ l

theorem popMin_none {ls : List (List Entry)} (h : popMin ls = none) :
    ∀ l ∈ ls, l = [] := by
  induction ls with
  | nil => intro l hl; simp at hl
  | cons hd rest ih =>
    cases hd with
    | nil =>
      rw [popMin] at h
      intro l hl
      rcases List.mem_cons.mp hl with rfl | hl
      · rfl
      · exact ih h l hl
    | cons e tl =>
      rw [popMin] at h
      cases hpm : popMin rest with
      | none => rw [hpm] at h; simp at h
      | some p =>
        rw [hpm] at h
        dsimp only at h
        obtain ⟨e', rest'⟩ := p
        by_cases hb : blt e'.1 e.1 <;> simp [hb] at h

theorem popMin_isSome {ls : List (List Entry)} {l₀ : List Entry}
    (hmem : l₀ ∈ ls) (hne : l₀ ≠ []) : ∃ e ls', popMin ls = some (e, ls') := by
  cases hpm : popMin ls with
  | none => exact absurd (popMin_none hpm l₀ hmem) hne
  | some p => obtain ⟨e, ls'⟩ := p; exact ⟨e, ls', rfl⟩

theorem popMin_totLen {ls : List (List Entry)} {e ls'}
    (h : popMin ls = some (e, ls')) : totLen ls' < totLen ls := by
  induction ls generalizing e ls' with
  | nil => simp [popMin] at h
  | cons hd rest ih =>
    cases hd with
    | nil =>
      rw [popMin] at h
      have := ih h
      simpa [totLen] using this
    | cons e₀ tl =>
      rw [popMin] at h
      cases hpm : popMin rest with
      | none =>
        rw [hpm] at h
        dsimp only at h
        injection h with h
        injection h with h1 h2
        subst h2
        simp [totLen]
      | some p =>
        obtain ⟨e', rest'⟩ := p
        rw [hpm] at h
        dsimp only at h
        by_cases hb : blt e'.1 e₀.1
        · rw [if_pos hb] at h
          injection h with h
          injection h with h1 h2
          subst h2
          have := ih hpm
          simp only [totLen, List.map_cons, List.sum_cons] at this ⊢
          omega
        · rw [if_neg hb] at h
          injection h with h
          injection h with h1 h2
          subst h2
          simp [totLen]

theorem popMin_mem_self {ls : List (List Entry)} {e ls'}
    (h : popMin ls = some (e, ls')) : memAll e ls := by
  induction ls generalizing e ls' with
  | nil => simp [popMin] at h
  | cons hd rest ih =>
    cases hd with
    | nil =>
      rw [popMin] at h
      obtain ⟨l, hl, hx⟩ := ih h
      exact ⟨l, List.mem_cons_of_mem _ hl, hx⟩
    | cons e₀ tl =>
      rw [popMin] at h
      cases hpm : popMin rest with
      | none =>
        rw [hpm] at h
        dsimp only at h
        injection h with h
        injection h with h1 h2
        subst h1
        exact ⟨e₀ :: tl, List.mem_cons_self _ _, List.mem_cons_self _ _⟩
      | some p =>
        obtain ⟨e', rest'⟩ := p
        rw [hpm] at h
        dsimp only at h
        by_cases hb : blt e'.1 e₀.1
        · rw [if_pos hb] at h
          injection h with h
          injection h with h1 h2
          subst h1
          obtain ⟨l, hl, hx⟩ := ih hpm
          exact ⟨l, List.mem_cons_of_mem _ hl, hx⟩
        · rw [if_neg hb] at h
          injection h with h
          injection h with h1 h2
          subst h1
          exact ⟨e₀ :: tl, List.mem_cons_self _ _, List.mem_cons_self _ _⟩

theorem popMin_sub {ls : List (List Entry)} {e ls'} {x : Entry}
    (h : popMin ls = some (e, ls')) (hx : memAll x ls') : memAll x ls := by
  induction ls generalizing e ls' with
  | nil => simp [popMin] at h
  | cons hd rest ih =>
    cases hd with
    | nil =>
      rw [popMin] at h
      obtain ⟨l, hl, hxl⟩ := ih h hx
      exact ⟨l, List.mem_cons_of_mem _ hl, hxl⟩
    | cons e₀ tl =>
      rw [popMin] at h
      cases hpm : popMin rest with
      | none =>
        rw [hpm] at h
        dsimp only at h
        injection h with h
        injection h with h1 h2
        subst h2
        obtain ⟨l, hl, hxl⟩ := hx
        rcases List.mem_cons.mp hl with heq | hl
        · rw [heq] at hxl
          exact ⟨e₀ :: tl, List.mem_cons_self _ _, List.mem_cons_of_mem _ hxl⟩
        · exact ⟨l, List.mem_cons_of_mem _ hl, hxl⟩
      | some p =>
        obtain ⟨e', rest'⟩ := p
        rw [hpm] at h
        dsimp only at h
        by_cases hb : blt e'.1 e₀.1
        · rw [if_pos hb] at h
          injection h with h
          injection h with h1 h2
          subst h2
          obtain ⟨l, hl, hxl⟩ := hx
          rcases List.mem_cons.mp hl with rfl | hl
          · exact ⟨e₀ :: tl, List.mem_cons_self _ _, hxl⟩
          · obtain ⟨l₂, hl₂, hxl₂⟩ := ih hpm ⟨l, hl, hxl⟩
            exact ⟨l₂, List.mem_cons_of_mem _ hl₂, hxl₂⟩
        · rw [if_neg hb] at h
          injection h with h
          injection h with h1 h2
          subst h2
          obtain ⟨l, hl, hxl⟩ := hx
          rcases List.mem_cons.mp hl with heq | hl
          · rw [heq] at hxl
            exact ⟨e₀ :: tl, List.mem_cons_self _ _, List.mem_cons_of_mem _ hxl⟩
          · exact ⟨l, List.mem_cons_of_mem _ hl, hxl⟩

theorem popMin_split {ls : List (List Entry)} {e ls'} {x : Entry}
    (h : popMin ls = some (e, ls')) (hx : memAll x ls) :
    x = e ∨ memAll x ls' := by
  induction ls generalizing e ls' with
  | nil => simp [popMin] at h
  | cons hd rest ih =>
    cases hd with
    | nil =>
      rw [popMin] at h
      obtain ⟨l, hl, hxl⟩ := hx
      rcases List.mem_cons.mp hl with rfl | hl
      · simp at hxl
      · exact ih h ⟨l, hl, hxl⟩
    | cons e₀ tl =>
      rw [popMin] at h
      cases hpm : popMin rest with
      | none =>
        rw [hpm] at h
        dsimp only at h
        injection h with h
        injection h with h1 h2
        subst h1; subst h2
        obtain ⟨l, hl, hxl⟩ := hx
        rcases List.mem_cons.mp hl with rfl | hl
        · rcases List.mem_cons.mp hxl with rfl | hxl
          · exact Or.inl rfl
          · exact Or.inr ⟨tl, List.mem_cons_self _ _, hxl⟩
        · exact Or.inr ⟨l, List.mem_cons_of_mem _ hl, hxl⟩
      | some p =>
        obtain ⟨e', rest'⟩ := p
        rw [hpm] at h
        dsimp only at h
        by_cases hb : blt e'.1 e₀.1
        · rw [if_pos hb] at h
          injection h with h
          injection h with h1 h2
          subst h1; subst h2
          obtain ⟨l, hl, hxl⟩ := hx
          rcases List.mem_cons.mp hl with rfl | hl
          · exact Or.inr ⟨e₀ :: tl, List.mem_cons_self _ _, hxl⟩
          · rcases ih hpm ⟨l, hl, hxl⟩ with hx' | ⟨l₂, hl₂, hxl₂⟩
            · exact Or.inl hx'
            · exact Or.inr ⟨l₂, List.mem_cons_of_mem _ hl₂, hxl₂⟩
        · rw [if_neg hb] at h
          injection h with h
          injection h with h1 h2
          subst h1; subst h2
          obtain ⟨l, hl, hxl⟩ := hx
          rcases List.mem_cons.mp hl with rfl | hl
          · rcases List.mem_cons.mp hxl with rfl | hxl
            · exact Or.inl rfl
            · exact Or.inr ⟨tl, List.mem_cons_self _ _, hxl⟩
          · exact Or.inr ⟨l, List.mem_cons_of_mem _ hl, hxl⟩

/-- Key-disjointness of two cursors; co-located partitions of one table
never hold a common key. -/
def DisjointKeys (l₁ l₂ : List Entry) : Prop := ∀ x ∈ l₁, ∀ y ∈ l₂, x.1 ≠ y.1

theorem popMin_good {ls : List (List Entry)} :
    ∀ {e : Entry} {ls' : List (List Entry)}, popMin ls = some (e, ls') →
      (∀ l ∈ ls, PartSorted l) → List.Pairwise DisjointKeys ls →
      ((∀ l ∈ ls', PartSorted l) ∧ List.Pairwise DisjointKeys ls') ∧
        (∀ x, memAll x ls' → blt e.1 x.1 = true) := by
  induction ls with
  | nil => intro e ls' h _ _; simp [popMin] at h
  | cons hd rest ih =>
    intro e ls' h hsort hdisj
    obtain ⟨hdhd, hdtail⟩ := List.pairwise_cons.mp hdisj
    have hsrest : ∀ l ∈ rest, PartSorted l :=
      fun l hl => hsort l (List.mem_cons_of_mem _ hl)
    cases hd with
    | nil =>
      rw [popMin] at h
      exact ih h hsrest hdtail
    | cons e₀ tl =>
      have hshd : PartSorted (e₀ :: tl) := hsort _ (List.mem_cons_self _ _)
      obtain ⟨hshead, hstail⟩ := List.pairwise_cons.mp hshd
      rw [popMin] at h
      cases hpm : popMin rest with
      | none =>
        rw [hpm] at h
        dsimp only at h
        injection h with h
        injection h with h1 h2
        subst h1; subst h2
        have hrest_empty := popMin_none hpm
        refine ⟨⟨?_, ?_⟩, ?_⟩
        · intro l hl
          rcases List.mem_cons.mp hl with heq | hl
          · rw [heq]; exact hstail
          · exact hsrest l hl
        · refine List.pairwise_cons.mpr ⟨?_, hdtail⟩
          intro l hl x hx y hy
          exact hdhd l hl x (List.mem_cons_of_mem _ hx) y hy
        · intro x hx
          obtain ⟨l, hl, hxl⟩ := hx
          rcases List.mem_cons.mp hl with heq | hl
          · rw [heq] at hxl; exact hshead x hxl
          · rw [hrest_empty l hl] at hxl; simp at hxl
      | some p =>
        obtain ⟨e', rest'⟩ := p
        rw [hpm] at h
        dsimp only at h
        obtain ⟨⟨hsort', hdisj'⟩, hmin'⟩ := ih hpm hsrest hdtail
        by_cases hb : blt e'.1 e₀.1
        · rw [if_pos hb] at h
          injection h with h
          injection h with h1 h2
          subst h1; subst h2
          refine ⟨⟨?_, ?_⟩, ?_⟩
          · intro l hl
            rcases List.mem_cons.mp hl with heq | hl
            · rw [heq]; exact hshd
            · exact hsort' l hl
          · refine List.pairwise_cons.mpr ⟨?_, hdisj'⟩
            intro l' hl' x hx y hy
            obtain ⟨l₂, hl₂, hy₂⟩ := popMin_sub hpm ⟨l', hl', hy⟩
            exact hdhd l₂ hl₂ x hx y hy₂
          · intro x hx
            obtain ⟨l, hl, hxl⟩ := hx
            rcases List.mem_cons.mp hl with heq | hl
            · rw [heq] at hxl
              rcases List.mem_cons.mp hxl with heq' | hxl
              · rw [heq']; exact hb
              · exact blt_trans hb (hshead x hxl)
            · exact hmin' x ⟨l, hl, hxl⟩
        · rw [if_neg hb] at h
          injection h with h
          injection h with h1 h2
          subst h1; subst h2
          have he'mem := popMin_mem_self hpm
          obtain ⟨l₂, hl₂, he'₂⟩ := he'mem
          have hne : e₀.1 ≠ e'.1 :=
            hdhd l₂ hl₂ e₀ (List.mem_cons_self _ _) e' he'₂
          have hb' : blt e₀.1 e'.1 = true := by
            rcases blt_total e₀.1 e'.1 with hlt | heq | hgt
            · exact hlt
            · exact absurd heq hne
            · exact absurd hgt (by simp [hb])
          refine ⟨⟨?_, ?_⟩, ?_⟩
          · intro l hl
            rcases List.mem_cons.mp hl with heq | hl
            · rw [heq]; exact hstail
            · exact hsrest l hl
          · refine List.pairwise_cons.mpr ⟨?_, hdtail⟩
            intro l hl x hx y hy
            exact hdhd l hl x (List.mem_cons_of_mem _ hx) y hy
          · intro x hx
            obtain ⟨l, hl, hxl⟩ := hx
            rcases List.mem_cons.mp hl with heq | hl
            · rw [heq] at hxl; exact hshead x hxl
            · rcases popMin_split hpm ⟨l, hl, hxl⟩ with heq' | hx'
              · rw [heq']; exact hb'
              · exact blt_trans hb' (hmin' x hx')

/-- The merge loop of `_merge`; `fuel` bounds the number of emitted
entries.  Every `popMin` step removes exactly one entry, so `totLen ls`
steps always drain the heap, exactly like the source's `while entries`. -/
def kMergeGo (fuel : Nat) (ls : List (List Entry)) : List Entry :=
  match fuel with
  | 0 => []
  | fuel + 1 =>
    match popMin ls with
    | none => []
    | some (e, ls') => e :: kMergeGo fuel ls'

/-- The raw entry stream produced by `_DTable._merge` on the cursors. -/
def kMerge (ls : List (List Entry)) : List Entry := kMergeGo (totLen ls) ls

theorem kMergeGo_sub {fuel : Nat} :
    ∀ {ls : List (List Entry)} {x : Entry}, x ∈ kMergeGo fuel ls → memAll x ls := by
  induction fuel with
  | zero => intro ls x hx; simp [kMergeGo] at hx
  | succ fuel ih =>
    intro ls x hx
    rw [kMergeGo] at hx
    cases hpm : popMin ls with
    | none => rw [hpm] at hx; simp at hx
    | some p =>
      obtain ⟨e, ls'⟩ := p
      rw [hpm] at hx
      dsimp only at hx
      rcases List.mem_cons.mp hx with heq | hx
      · rw [heq]; exact popMin_mem_self hpm
      · exact popMin_sub hpm (ih hx)

theorem kMergeGo_sorted (fuel : Nat) :
    ∀ {ls : List (List Entry)}, (∀ l ∈ ls, PartSorted l) →
      List.Pairwise DisjointKeys ls →
      List.Pairwise (fun e₁ e₂ => blt e₁.1 e₂.1 = true) (kMergeGo fuel ls) := by
  induction fuel with
  | zero => intro ls _ _; simp [kMergeGo]
  | succ fuel ih =>
    intro ls hsort hdisj
    rw [kMergeGo]
    cases hpm : popMin ls with
    | none => simp
    | some p =>
      obtain ⟨e, ls'⟩ := p
      dsimp only
      obtain ⟨⟨hsort', hdisj'⟩, hmin⟩ := popMin_good hpm hsort hdisj
      refine List.pairwise_cons.mpr ⟨?_, ih hsort' hdisj'⟩
      intro e' he'
      exact hmin e' (kMergeGo_sub he')

/-- Merging exhausted cursors yields nothing. -/
theorem popMin_of_all_empty {ls : List (List Entry)} (h : ∀ l ∈ ls, l = []) :
    popMin ls = none := by
  induction ls with
  | nil => rfl
  | cons hd rest ih =>
    have hhd : hd = [] := h hd (List.mem_cons_self _ _)
    subst hhd
    rw [popMin]
    exact ih (fun l hl => h l (List.mem_cons_of_mem _ hl))

theorem kMergeGo_all_empty {fuel : Nat} {ls : List (List Entry)}
    (h : ∀ l ∈ ls, l = []) : kMergeGo fuel ls = [] := by
  cases fuel with
  | zero => rfl
  | succ fuel => rw [kMergeGo, popMin_of_all_empty h]

theorem totLen_pos {ls : List (List Entry)} {l₀ : List Entry}
    (hmem : l₀ ∈ ls) (hne : l₀ ≠ []) : 0 < totLen ls := by
  induction ls with
  | nil => simp at hmem
  | cons hd rest ih =>
    rcases List.mem_cons.mp hmem with heq | hmem
    · subst heq
      have : 0 < l₀.length := List.length_pos.mpr hne
      simp only [totLen, List.map_cons, List.sum_cons]
      omega
    · have := ih hmem
      simp only [totLen, List.map_cons, List.sum_cons] at this ⊢
      omega

/-- A non-empty cursor forces the merge to emit its minimal entry first. -/
theorem kMerge_head {ls : List (List Entry)} {l₀ : List Entry}
    (hmem : l₀ ∈ ls) (hne : l₀ ≠ []) :
    ∃ e ls', popMin ls = some (e, ls') ∧ kMerge ls = e :: kMergeGo (totLen ls - 1) ls' := by
  obtain ⟨e, ls', hpm⟩ := popMin_isSome hmem hne
  have hpos := totLen_pos hmem hne
  obtain ⟨m, hm⟩ : ∃ m, totLen ls = m + 1 := ⟨totLen ls - 1, by omega⟩
  refine ⟨e, ls', hpm, ?_⟩
  rw [kMerge, hm, kMergeGo, hpm]
  simp [hm]

/-! ### `_DTable`: table state and point operations

A `_DTable` handle addresses `partitions` LMDB partition stores.
`TableState` carries the partition count and the contents of every
partition store (`data p` for `p < partitions`; other indices hold `[]`).
All operations below use `use_serialize=True`, the engine's default, so
`kv_to_bytes` is `c_pickle.dumps` on each component. -/

structure TableState where
  partitions : Nat
  data : Nat → List Entry

/-- Reachable-state invariant of a table: each partition is strictly
key-sorted (LMDB), every entry sits in the partition its key hashes to
(every writer routes through `_hash_key_to_partition`), indices beyond
the partition count are empty, and stored bytes are pickled objects. -/
structure TableWF (st : TableState) : Prop where
  sorted : ∀ p, PartSorted (st.data p)
  routed : ∀ p, ∀ e ∈ st.data p, hashPartN e.1 st.partitions = .ok p
  bounded : ∀ p, st.partitions ≤ p → st.data p = []
  coded : ∀ p, ∀ e ∈ st.data p, ∃ k v : PyObj, e = (dumps k, dumps v)

/-- `_DTable.put(k, v)`: route the encoded key to its partition, then a
write-transaction `txn.put`. -/
def dtablePut (st : TableState) (k v : PyObj) : Except String TableState := do
  let kb := dumps k
  let vb := dumps v
  let p ← hashPartN kb st.partitions
  .ok { st with data := fun i => if i = p then lmdbPut (st.data p) kb vb else st.data i }

/-- `_DTable.get(k)`: route the encoded key, `txn.get`, decode. -/
def dtableGet (st : TableState) (k : PyObj) : Except String (Option PyObj) := do
  let kb := dumps k
  let p ← hashPartN kb st.partitions
  match lmdbGet (st.data p) kb with
  | none => .ok none
  | some old =>
    match loads old with
    | some v => .ok (some v)
    | none => .error "unpickling error"

/-- `_DTable.put_if_absent(k, v)`: returns the updated state and the
prior value (`None` if the key was absent and the put happened). -/
def dtablePutIfAbsent (st : TableState) (k v : PyObj) :
    Except String (TableState × Option PyObj) := do
  let kb := dumps k
  let p ← hashPartN kb st.partitions
  match lmdbGet (st.data p) kb with
  | none =>
    let vb := dumps v
    .ok ({ st with data := fun i => if i = p then lmdbPut (st.data p) kb vb else st.data i },
         none)
  | some old =>
    match loads old with
    | some ov => .ok (st, some ov)
    | none => .error "unpickling error"

/-- `_DTable.count()`: sum of `env.stat()['entries']` over partitions. -/
def dtableCount (st : TableState) : Nat :=
  ((List.range st.partitions).map (fun p => (st.data p).length)).sum

/-- The per-partition cursors opened by `_DTable.collect`. -/
def partitionCursors (st : TableState) : List (List Entry) :=
  (List.range st.partitions).map st.data

/-- The raw byte-level entry stream of `_DTable.collect` (before the
`use_serialize` decoding done while yielding). -/
def dtableCollectRaw (st : TableState) : List Entry := kMerge (partitionCursors st)

/-- Decoding done by `_merge` when yielding an entry
(`c_pickle.loads` on key and value; Python raises on garbage). -/
def decodeEntry (e : Entry) : Except String (PyObj × PyObj) :=
  match loads e.1, loads e.2 with
  | some k, some v => .ok (k, v)
  | _, _ => .error "unpickling error"

/-- `_DTable.take(n)` (with `keysOnly=False`): clamp `n` to at least 1,
then consume that many entries of the collect stream, decoding each. -/
def dtableTake (st : TableState) (n : Int) : Except String (List (PyObj × PyObj)) :=
  let n' := if n ≤ 0 then 1 else n
  ((dtableCollectRaw st).take n'.toNat).mapM decodeEntry

/-- `_DTable.first()`: `take(1)`, returning its head or `None`. -/
def dtableFirst (st : TableState) : Except String (Option (PyObj × PyObj)) := do
  let resp ← dtableTake st 1
  match resp with
  | [] => .ok none
  | x :: _ => .ok (some x)

/-! ### `_DTable.put_all`

The source opens a write transaction on every partition up-front
(`txn_map`), routes each entry by hash inside a `try`, marks `_succ =
False` and breaks on the first exception raised while processing an
entry, and finally commits every transaction when `_succ` else aborts
every transaction.  Items of the iterable are modelled as
`Except String (PyObj × PyObj)`: an `.error` item stands for an entry
whose processing raises. -/

/-- The entry loop of `put_all`: threads the per-partition transaction
views (`txn`) and the success flag, breaking on the first failure. -/
def putAllLoop (N : Nat) :
    List (Except String (PyObj × PyObj)) → (Nat → List Entry) → Bool →
      (Nat → List Entry) × Bool
  | [], txn, succ => (txn, succ)
  | item :: rest, txn, succ =>
    match item with
    | .error _ => (txn, false)
    | .ok (k, v) =>
      let kb := dumps k
      let vb := dumps v
      match hashPartN kb N with
      | .error _ => (txn, false)
      | .ok p =>
        putAllLoop N rest (fun i => if i = p then lmdbPut (txn p) kb vb else txn i) succ

/-- `_DTable.put_all(kv_list)`: run the loop, then commit all partition
transactions on success or abort them all otherwise. -/
def dtablePutAll (st : TableState) (kvList : List (Except String (PyObj × PyObj))) :
    TableState :=
  let res := putAllLoop st.partitions kvList st.data true
  { st with
    data := fun p =>
      if p < st.partitions then (if res.2 then res.1 p else st.data p) else st.data p }

theorem putAllLoop_error (N : Nat) :
    ∀ (items : List (Except String (PyObj × PyObj))) (txn : Nat → List Entry) (succ : Bool),
      (∃ msg, Except.error msg ∈ items) → (putAllLoop N items txn succ).2 = false := by
  intro items
  induction items with
  | nil => intro txn succ h; obtain ⟨msg, hmem⟩ := h; simp at hmem
  | cons item rest ih =>
    intro txn succ h
    obtain ⟨msg, hmem⟩ := h
    cases item with
    | error e => rfl
    | ok kv =>
      obtain ⟨k, v⟩ := kv
      rcases List.mem_cons.mp hmem with heq | hmem
      · exact absurd heq (by simp)
      · rw [putAllLoop]
        cases hh : hashPartN (dumps k) N with
        | error e => rfl
        | ok p =>
          dsimp only
          exact ih _ _ ⟨msg, hmem⟩

theorem putAllLoop_ok {N : Nat} (hN : 0 < N) :
    ∀ (items : List (Except String (PyObj × PyObj))) (txn : Nat → List Entry) (succ : Bool),
      (∀ it ∈ items, ∃ kv, it = .ok kv) → (putAllLoop N items txn succ).2 = succ := by
  intro items
  induction items with
  | nil => intro txn succ _; rfl
  | cons item rest ih =>
    intro txn succ h
    cases item with
    | error e =>
      obtain ⟨kv, hkv⟩ := h _ (List.mem_cons_self _ _)
      simp at hkv
    | ok kv =>
      obtain ⟨k, v⟩ := kv
      rw [putAllLoop]
      obtain ⟨p, hp, _⟩ := hashPartN_range (dumps k) hN
      rw [hp]
      dsimp only
      exact ih _ _ (fun it hit => h it (List.mem_cons_of_mem _ hit))

/-- Once a transaction view holds `(kb, vb)` and every remaining item
with key bytes `kb` writes the same value, the final view still holds it. -/
theorem putAllLoop_preserve {N : Nat} (hN : 0 < N) {kb vb : Bytes} {pk : Nat}
    (hpk : hashPartN kb N = .ok pk) :
    ∀ {items : List (Except String (PyObj × PyObj))} {txn : Nat → List Entry} {succ : Bool},
      (∀ k v, .ok (k, v) ∈ items → dumps k = kb → dumps v = vb) →
      lmdbGet (txn pk) kb = some vb →
      lmdbGet ((putAllLoop N items txn succ).1 pk) kb = some vb := by
  intro items
  induction items with
  | nil => intro txn succ _ hget; exact hget
  | cons item rest ih =>
    intro txn succ hsame hget
    cases item with
    | error e => exact hget
    | ok kv =>
      obtain ⟨k, v⟩ := kv
      rw [putAllLoop]
      cases hh : hashPartN (dumps k) N with
      | error e => exact hget
      | ok p =>
        dsimp only
        apply ih (fun k' v' h' he => hsame k' v' (List.mem_cons_of_mem _ h') he)
        dsimp only
        by_cases hkk : dumps k = kb
        · have hv : dumps v = vb := hsame k v (List.mem_cons_self _ _) hkk
          have hpp : p = pk := by
            rw [hkk] at hh; rw [hh] at hpk; injection hpk
          subst hpp
          rw [if_pos rfl, hkk, hv]
          exact lmdbGet_put_same _ _ _
        · by_cases hip : pk = p
          · subst hip
            rw [if_pos rfl]
            rw [lmdbGet_put_other _ _ _ _ (fun he => hkk he.symm)]
            exact hget
          · rw [if_neg hip]
            exact hget

/-- After the loop over an all-ok list, an item whose key bytes occur
with a single value is recorded in its hash partition's view. -/
theorem putAllLoop_get {N : Nat} (hN : 0 < N) {k v : PyObj} {pk : Nat}
    (hpk : hashPartN (dumps k) N = .ok pk) :
    ∀ {items : List (Except String (PyObj × PyObj))} {txn : Nat → List Entry} {succ : Bool},
      (∀ it ∈ items, ∃ kv, it = .ok kv) →
      .ok (k, v) ∈ items →
      (∀ k' v', .ok (k', v') ∈ items → dumps k' = dumps k → dumps v' = dumps v) →
      lmdbGet ((putAllLoop N items txn succ).1 pk) (dumps k) = some (dumps v) := by
  intro items
  induction items with
  | nil => intro txn succ _ hmem _; simp at hmem
  | cons item rest ih =>
    intro txn succ hok hmem hsame
    cases item with
    | error e =>
      obtain ⟨kv, hkv⟩ := hok _ (List.mem_cons_self _ _)
      simp at hkv
    | ok kv =>
      obtain ⟨k₀, v₀⟩ := kv
      rw [putAllLoop]
      cases hh : hashPartN (dumps k₀) N with
      | error e =>
        obtain ⟨p, hp, _⟩ := hashPartN_range (dumps k₀) hN
        rw [hp] at hh
        exact absurd hh (by simp)
      | ok p =>
        dsimp only
        by_cases hkk : dumps k₀ = dumps k
        · have hv : dumps v₀ = dumps v := hsame k₀ v₀ (List.mem_cons_self _ _) hkk
          have hpp : p = pk := by
            rw [hkk] at hh; rw [hh] at hpk; injection hpk
          subst hpp
          apply putAllLoop_preserve hN hpk
          · intro k' v' h' he
            exact hsame k' v' (List.mem_cons_of_mem _ h') he
          · dsimp only
            rw [if_pos rfl, hkk, hv]
            exact lmdbGet_put_same _ _ _
        · rcases List.mem_cons.mp hmem with heq | hmem'
          · exact absurd (by injection heq with h; injection h with h1 h2; rw [h1]) hkk
          · apply ih (fun it hit => hok it (List.mem_cons_of_mem _ hit)) hmem'
            intro k' v' h' he
            exact hsame k' v' (List.mem_cons_of_mem _ h') he

/-! ### `do_sample`

Each partition task deserializes `(fraction, seed)`, seeds its own
`np.random.RandomState(seed)`, iterates the partition cursor and keeps an
entry when `rand() < fraction`.

Modelled: `np.random.RandomState` — a deterministic PRNG stream.  The
engine depends only on the stream being a deterministic function of the
seed, so it is modelled by a concrete 64-bit linear-congruential
generator rather than numpy's Mersenne Twister bit stream. -/

def rngNext (s : Nat) : Nat := (6364136223846793005 * s + 1442695040888963407) % 2 ^ 64

/-- One `rand()` draw: a rational in `[0, 1)` and the advanced state. -/
def rngDraw (s : Nat) : ℚ × Nat :=
  let s' := rngNext s
  ((s' : ℚ) / (2 ^ 64 : ℚ), s')

/-- The cursor loop of `do_sample` over one partition. -/
def doSampleGo (fraction : ℚ) : List Entry → Nat → List Entry
  | [], _ => []
  | e :: rest, s =>
    let (u, s') := rngDraw s
    if u < fraction then e :: doSampleGo fraction rest s'
    else doSampleGo fraction rest s'

/-- `_DTable.sample(fraction, seed)`: run `do_sample` on every partition
(the derived in-memory table keeps the partition count). -/
def dtableSample (st : TableState) (fraction : ℚ) (seed : Nat) : TableState :=
  { partitions := st.partitions,
    data := fun p => if p < st.partitions then doSampleGo fraction (st.data p) seed else [] }

/-! ### `do_subtract_by_key` and `do_union` kernels -/

/-- The cursor loop of `do_subtract_by_key` over one partition pair:
copy a left entry when the right store lacks its key. -/
def subtractPass (right : List Entry) : List Entry → List Entry → List Entry
  | [], dst => dst
  | (kb, lvb) :: rest, dst =>
    match lmdbGet right kb with
    | none => subtractPass right rest (lmdbPut dst kb lvb)
    | some _ => subtractPass right rest dst

/-- `do_subtract_by_key` on aligned tables (matching partition counts). -/
def subtractAligned (st₁ st₂ : TableState) : TableState :=
  { partitions := st₁.partitions,
    data := fun p =>
      if p < st₁.partitions then subtractPass (st₂.data p) (st₁.data p) [] else [] }

/-- First pass of `do_union`: stream the left cursor; keys absent on the
right are copied byte-for-byte, keys present on both are merged with the
user function and re-encoded. -/
def unionPass1 (f : PyObj → PyObj → PyObj) (right : List Entry) :
    List Entry → List Entry → Except String (List Entry)
  | [], dst => .ok dst
  | (kb, lvb) :: rest, dst =>
    match lmdbGet right kb with
    | none => unionPass1 f right rest (lmdbPut dst kb lvb)
    | some rvb =>
      match loads lvb, loads rvb with
      | some lv, some rv => unionPass1 f right rest (lmdbPut dst kb (dumps (f lv rv)))
      | _, _ => .error "unpickling error"

/-- Second pass of `do_union`: stream the right cursor; copy entries
whose key the destination does not hold yet. -/
def unionPass2 : List Entry → List Entry → List Entry
  | [], dst => dst
  | (kb, rvb) :: rest, dst =>
    match lmdbGet dst kb with
    | none => unionPass2 rest (lmdbPut dst kb rvb)
    | some _ => unionPass2 rest dst

/-- `do_union` over one partition pair. -/
def doUnionPartition (f : PyObj → PyObj → PyObj) (left right : List Entry) :
    Except String (List Entry) := do
  let dst ← unionPass1 f right left []
  .ok (unionPass2 right dst)

/-- `do_union` on aligned tables; a partition task raising (unpickling
failure) fails the whole operator. -/
def unionAligned (f : PyObj → PyObj → PyObj) (st₁ st₂ : TableState) :
    Except String TableState :=
  match (List.range st₁.partitions).mapM
      (fun p => doUnionPartition f (st₁.data p) (st₂.data p)) with
  | .error e => .error e
  | .ok parts =>
    .ok { partitions := st₁.partitions,
          data := fun p => (parts.getD p []) }

/-! ### `save_as` and the binary-operator drivers -/

/-- `_DTable.save_as(name, namespace, partition)`: a fresh persistent
table (fresh name, hence an absent meta key, so the requested partition
count wins) filled by `put_all(self.collect())` — every entry is decoded
while collecting and re-encoded while routing into the new partition
layout. -/
def save_as (st : TableState) (n : Nat) : Except String TableState := do
  let items ← (dtableCollectRaw st).mapM decodeEntry
  .ok (dtablePutAll { partitions := n, data := fun _ => [] } (items.map .ok))

/-- Default merge function of `_DTable.union`: `lambda v1, v2 : v1`. -/
def unionDefaultFunc : PyObj → PyObj → PyObj := fun v₁ _ => v₁

/-- `_DTable.union(other, func)`.  When the partition counts differ the
side with fewer entries is rematerialised via `save_as` at the other
side's count and the operator re-enters; the re-entry sees equal counts,
so it is unfolded here to the aligned kernel directly. -/
def dtableUnion (st₁ st₂ : TableState) (f : PyObj → PyObj → PyObj) :
    Except String TableState :=
  if st₂.partitions ≠ st₁.partitions then
    if dtableCount st₂ > dtableCount st₁ then do
      let st₁' ← save_as st₁ st₂.partitions
      unionAligned f st₁' st₂
    else do
      let st₂' ← save_as st₂ st₁.partitions
      unionAligned f st₁ st₂'
  else unionAligned f st₁ st₂

/-- `_DTable.subtractByKey(other)`.  When the partition counts differ:
if the right side is larger, the left is rematerialised and the operator
re-enters (the re-entry sees equal counts, unfolded to the aligned
kernel); otherwise the source calls `self.union(other.save_as(...))` —
`union`, not `subtractByKey` — which is embedded verbatim here. -/
def dtableSubtractByKey (st₁ st₂ : TableState) : Except String TableState :=
  if st₂.partitions ≠ st₁.partitions then
    if dtableCount st₂ > dtableCount st₁ then do
      let st₁' ← save_as st₁ st₂.partitions
      .ok (subtractAligned st₁' st₂)
    else do
      let st₂' ← save_as st₂ st₁.partitions
      dtableUnion st₁ st₂' unionDefaultFunc
  else .ok (subtractAligned st₁ st₂)

/-! ### `Standalone.table` and the meta registry -/

/-- Modelled from the spec: `StoreType.LMDB.value` (`arch.api.StoreType`
is not under `src/`); the spec fixes the on-disk tier tags `"LMDB"` and
`"IN_MEMORY"`. -/
def StoreType_LMDB : String := "LMDB"

/-- Modelled from the spec: `StoreType.IN_MEMORY.value`. -/
def StoreType_IN_MEMORY : String := "IN_MEMORY"

/-- `".".join([_type, namespace, name])`: the meta-registry key of a
table identity. -/
def tableKey (t nspace nm : String) : String := t ++ "." ++ nspace ++ "." ++ nm

/-- A `_DTable` handle's identity fields
(`_type`, `_namespace`, `_name`, `_partitions`). -/
structure DTableId where
  ttype : String
  nspace : String
  name : String
  partitions : Nat
  deriving DecidableEq, Repr

/-- `Standalone.__init__` line 45: the meta table is
`_DTable('__META__', '__META__', 'fragments', 10)`, i.e. type tag
`'__META__'`, namespace `'__META__'`, name `'fragments'`, 10 partitions. -/
def metaTableId : DTableId :=
  { ttype := "__META__", nspace := "__META__", name := "fragments", partitions := 10 }

/-- `__type = StoreType.LMDB.value if persistent else StoreType.IN_MEMORY.value`. -/
def tierOf (persistent : Bool) : String :=
  if persistent then StoreType_LMDB else StoreType_IN_MEMORY

/-- The pickled meta key `".".join([__type, namespace, name])` consulted
by `Standalone.table` (a Python string, pickled). -/
def metaKeyObj (nm nspace : String) (persistent : Bool) : PyObj :=
  .pyStr (strBytes (tableKey (tierOf persistent) nspace nm))

/-- `Standalone.table(name, namespace, partition, persistent)`: put the
partition count if absent, read back the recorded count, and hand out a
table pinned to it.  `meta` is the meta table's store state; the result
is the updated meta state and the partition count of the returned
`_DTable` (stored counts are Python ints; the handle's count is their
`toNat`, lossless for the natural counts recorded here). -/
def standaloneTable (meta : TableState) (nm nspace : String) (partition : Nat)
    (persistent : Bool) : Except String (TableState × Nat) :=
  let key := metaKeyObj nm nspace persistent
  match dtablePutIfAbsent meta key (.pyInt (partition : Int)) with
  | .error e => .error e
  | .ok (meta', _) =>
    match dtableGet meta' key with
    | .error e => .error e
    | .ok (some (.pyInt n)) => .ok (meta', n.toNat)
    | .ok _ => .error "bad meta entry"

/-- Decidable equality for `Except` results (evaluating the embedded
operations on concrete inputs). -/
instance {ε α : Type} [DecidableEq ε] [DecidableEq α] : DecidableEq (Except ε α) := fun x y =>
  match x, y with
  | .ok a, .ok b =>
    if h : a = b then .isTrue (by rw [h])
    else .isFalse (by intro hc; injection hc; contradiction)
  | .error e, .error f =>
    if h : e = f then .isTrue (by rw [h])
    else .isFalse (by intro hc; injection hc; contradiction)
  | .ok _, .error _ => .isFalse (by intro hc; exact Except.noConfusion hc)
  | .error _, .ok _ => .isFalse (by intro hc; exact Except.noConfusion hc)

/-! ### Helper lemmas about the table operations -/

theorem dtableGet_eval {st : TableState} {k : PyObj} {p : Nat}
    (hp : hashPartN (dumps k) st.partitions = .ok p) :
    dtableGet st k =
      match lmdbGet (st.data p) (dumps k) with
      | none => .ok none
      | some old =>
        match loads old with
        | some v => .ok (some v)
        | none => .error "unpickling error" := by
  simp only [dtableGet, hp]
  rfl

theorem dtableGet_inv {st : TableState} {k v : PyObj} {p : Nat}
    (hp : hashPartN (dumps k) st.partitions = .ok p)
    (h : dtableGet st k = .ok (some v)) :
    ∃ w, lmdbGet (st.data p) (dumps k) = some w ∧ loads w = some v := by
  rw [dtableGet_eval hp] at h
  cases hg : lmdbGet (st.data p) (dumps k) with
  | none => rw [hg] at h; simp at h
  | some w =>
    rw [hg] at h
    dsimp only at h
    cases hl : loads w with
    | none => rw [hl] at h; simp at h
    | some v' =>
      rw [hl] at h
      simp only [Except.ok.injEq, Option.some.injEq] at h
      exact ⟨w, rfl, by rw [hl, h]⟩

/-! ### Claim C3: the partition hasher -/

/-- C3.  For every key `k` and partition count `N ≥ 1` the hasher
returns an index in `[0, N)`; being a pure function of `(k, N)` it is
deterministic across runs and processes; for `N < 1` it raises
`ValueError('partitions must be a positive number')`. -/
theorem C3_partitioner_range (key : Bytes) (N : Int) :
    (0 < N → ∃ b, hash_key_to_partition key N = .ok b ∧ 0 ≤ b ∧ b < N) ∧
    (N < 1 → hash_key_to_partition key N =
      .error "partitions must be a positive number") :=
  ⟨fun hN => hash_range key N hN, fun hN => hash_error hN⟩

set_option maxRecDepth 40000 in
/-- Witness for C3 at the concrete key `[]` and counts `1` and `0`. -/
theorem C3_partitioner_range_witness :
    (∃ b, hash_key_to_partition [] 1 = .ok b ∧ 0 ≤ b ∧ b < 1) ∧
    hash_key_to_partition [] 0 = .error "partitions must be a positive number" ∧
    hash_key_to_partition [] 1 = .ok 0 :=
  ⟨(C3_partitioner_range [] 1).1 (by norm_num),
   (C3_partitioner_range [] 0).2 (by norm_num),
   by decide⟩

/-! ### Claim C7: put/get round trip -/

/-- C7.  On any table with a positive partition count, `put(k, v)`
followed by `get(k)` returns `v`. -/
theorem C7_put_get (st : TableState) (k v : PyObj) (h : 0 < st.partitions) :
    ∃ st', dtablePut st k v = .ok st' ∧ dtableGet st' k = .ok (some v) := by
  obtain ⟨p, hp, hpN⟩ := hashPartN_range (dumps k) h
  refine ⟨{ st with data := fun i =>
      if i = p then lmdbPut (st.data p) (dumps k) (dumps v) else st.data i }, ?_, ?_⟩
  · simp only [dtablePut, hp]
    rfl
  · have hp' : hashPartN (dumps k)
        ({ st with data := fun i =>
            if i = p then lmdbPut (st.data p) (dumps k) (dumps v) else st.data i } : TableState).partitions
        = .ok p := hp
    rw [dtableGet_eval hp']
    dsimp only
    rw [if_pos rfl, lmdbGet_put_same]
    dsimp only
    rw [loads_dumps]

set_option maxRecDepth 40000 in
/-- Witness for C7: a singleton table, key `pyNone`, value `pyInt 7`. -/
theorem C7_put_get_witness :
    0 < (TableState.mk 1 (fun _ => [])).partitions ∧
    ∃ st', dtablePut (TableState.mk 1 (fun _ => [])) .pyNone (.pyInt 7) = .ok st' ∧
      dtableGet st' .pyNone = .ok (some (.pyInt 7)) :=
  ⟨by decide, C7_put_get (TableState.mk 1 (fun _ => [])) .pyNone (.pyInt 7) (by decide)⟩

/-! ### Claims C2 and C4: meta registry identity and first-writer-wins -/

theorem except_bind_ok {ε α β : Type} (a : α) (f : α → Except ε β) :
    (Bind.bind (Except.ok a) f : Except ε β) = f a := rfl


theorem dtablePutIfAbsent_fresh {st : TableState} {k v : PyObj} {p : Nat}
    (hp : hashPartN (dumps k) st.partitions = .ok p)
    (habs : lmdbGet (st.data p) (dumps k) = none) :
    dtablePutIfAbsent st k v =
      .ok ({ st with data := fun i =>
              if i = p then lmdbPut (st.data p) (dumps k) (dumps v) else st.data i },
           none) := by
  simp only [dtablePutIfAbsent, hp, except_bind_ok]
  rw [habs]

theorem dtablePutIfAbsent_present {st : TableState} {k v ov : PyObj} {p : Nat} {w : Bytes}
    (hp : hashPartN (dumps k) st.partitions = .ok p)
    (hpres : lmdbGet (st.data p) (dumps k) = some w)
    (hl : loads w = some ov) :
    dtablePutIfAbsent st k v = .ok (st, some ov) := by
  simp only [dtablePutIfAbsent, hp, except_bind_ok]
  rw [hpres]
  dsimp only
  rw [hl]

theorem standaloneTable_fresh {meta : TableState} {nm ns : String} {N : Nat} {flag : Bool}
    {p : Nat}
    (hp : hashPartN (dumps (metaKeyObj nm ns flag)) meta.partitions = .ok p)
    (habs : lmdbGet (meta.data p) (dumps (metaKeyObj nm ns flag)) = none) :
    standaloneTable meta nm ns N flag =
      .ok ({ meta with data := fun i =>
              if i = p then lmdbPut (meta.data p) (dumps (metaKeyObj nm ns flag))
                              (dumps (.pyInt (N : Int)))
                       else meta.data i },
           N) := by
  unfold standaloneTable
  dsimp only
  rw [dtablePutIfAbsent_fresh hp habs]
  dsimp only
  have hp' : hashPartN (dumps (metaKeyObj nm ns flag))
      ({ meta with data := fun i =>
          if i = p then lmdbPut (meta.data p) (dumps (metaKeyObj nm ns flag))
                          (dumps (.pyInt (N : Int)))
                   else meta.data i } : TableState).partitions = .ok p := hp
  rw [dtableGet_eval hp']
  dsimp only
  rw [if_pos rfl, lmdbGet_put_same]
  dsimp only
  rw [loads_dumps]
  dsimp only
  rw [Int.toNat_natCast]

theorem standaloneTable_present {meta : TableState} {nm ns : String} (M : Nat) {flag : Bool}
    {p : Nat} {K : Int}
    (hp : hashPartN (dumps (metaKeyObj nm ns flag)) meta.partitions = .ok p)
    (hpres : lmdbGet (meta.data p) (dumps (metaKeyObj nm ns flag)) = some (dumps (.pyInt K))) :
    standaloneTable meta nm ns M flag = .ok (meta, K.toNat) := by
  unfold standaloneTable
  dsimp only
  rw [dtablePutIfAbsent_present hp hpres (loads_dumps _)]
  dsimp only
  rw [dtableGet_eval hp, hpres]
  dsimp only
  rw [loads_dumps]

theorem dtableGet_none_inv {st : TableState} {k : PyObj} {p : Nat}
    (hp : hashPartN (dumps k) st.partitions = .ok p)
    (h : dtableGet st k = .ok none) :
    lmdbGet (st.data p) (dumps k) = none := by
  rw [dtableGet_eval hp] at h
  cases hg : lmdbGet (st.data p) (dumps k) with
  | none => rfl
  | some w =>
    rw [hg] at h
    dsimp only at h
    cases hl : loads w with
    | none => rw [hl] at h; simp at h
    | some v => rw [hl] at h; simp at h

/-- C2 (counterexample).  The claim says the meta registry has the
persistent (LMDB) tier tag and name `__META__`; the source constructs
`_DTable('__META__', '__META__', 'fragments', 10)`, whose type tag is
`'__META__'` (not `'LMDB'`) and whose name is `'fragments'`. -/
theorem C2_meta_registry_counterexample :
    ¬ (metaTableId.ttype = StoreType_LMDB ∧ metaTableId.name = "__META__") := by
  decide

/-- C2 (amended).  The meta registry is the fixed table with type tag
`'__META__'`, namespace `'__META__'`, name `'fragments'` and partition
count 10, and `table()` records partition counts under the key
`"{tier}.{namespace}.{name}"`. -/
theorem C2_meta_registry (meta : TableState) (nm ns : String) (N : Nat) (flag : Bool)
    (hmeta : 0 < meta.partitions)
    (habsent : dtableGet meta (metaKeyObj nm ns flag) = .ok none) :
    metaTableId = ⟨"__META__", "__META__", "fragments", 10⟩ ∧
    metaKeyObj nm ns flag = .pyStr (strBytes (tierOf flag ++ "." ++ ns ++ "." ++ nm)) ∧
    ∃ meta', standaloneTable meta nm ns N flag = .ok (meta', N) ∧
      dtableGet meta' (metaKeyObj nm ns flag) = .ok (some (.pyInt (N : Int))) := by
  obtain ⟨p, hp, _⟩ := hashPartN_range (dumps (metaKeyObj nm ns flag)) hmeta
  have habs := dtableGet_none_inv hp habsent
  refine ⟨rfl, rfl, _, standaloneTable_fresh hp habs, ?_⟩
  have hp' : hashPartN (dumps (metaKeyObj nm ns flag))
      ({ meta with data := fun i =>
          if i = p then lmdbPut (meta.data p) (dumps (metaKeyObj nm ns flag))
                          (dumps (.pyInt (N : Int)))
                   else meta.data i } : TableState).partitions = .ok p := hp
  rw [dtableGet_eval hp']
  dsimp only
  rw [if_pos rfl, lmdbGet_put_same]
  dsimp only
  rw [loads_dumps]

set_option maxRecDepth 80000 in
/-- C4 (counterexample).  On a fresh meta registry,
`table("a", "b", 1, persistent=True)` records and returns partition
count 1, but the subsequent `table("a", "b", 2, persistent=False)`
returns 2, not 1: the meta key embeds the tier tag, so calls differing
in `persistent` do not see the first writer's count. -/
theorem C4_first_writer_wins_counterexample :
    ((standaloneTable (TableState.mk 10 (fun _ => [])) "a" "b" 1 true).bind fun r =>
      (standaloneTable r.1 "a" "b" 2 false).map fun r₂ => (r.2, r₂.2)) =
      .ok (1, 2) := by
  decide

/-- C4 (amended).  For a fixed persistence flag: after a first call
`table(name, ns, N, persistent)` on a registry not yet holding the key,
every subsequent call `table(name, ns, M, persistent)` (same flag)
returns a table whose partition count equals `N` regardless of `M`
(first-writer-wins via put-if-absent on the meta registry). -/
theorem C4_first_writer_wins (meta : TableState) (nm ns : String) (N M : Nat)
    (flag : Bool) (hmeta : 0 < meta.partitions)
    (habsent : dtableGet meta (metaKeyObj nm ns flag) = .ok none) :
    ∃ meta', standaloneTable meta nm ns N flag = .ok (meta', N) ∧
      ∃ meta'', standaloneTable meta' nm ns M flag = .ok (meta'', N) := by
  obtain ⟨p, hp, _⟩ := hashPartN_range (dumps (metaKeyObj nm ns flag)) hmeta
  have habs := dtableGet_none_inv hp habsent
  refine ⟨_, standaloneTable_fresh hp habs, ?_⟩
  have hp' : hashPartN (dumps (metaKeyObj nm ns flag))
      ({ meta with data := fun i =>
          if i = p then lmdbPut (meta.data p) (dumps (metaKeyObj nm ns flag))
                          (dumps (.pyInt (N : Int)))
                   else meta.data i } : TableState).partitions = .ok p := hp
  have hpres : lmdbGet
      (({ meta with data := fun i =>
          if i = p then lmdbPut (meta.data p) (dumps (metaKeyObj nm ns flag))
                          (dumps (.pyInt (N : Int)))
                   else meta.data i } : TableState).data p)
      (dumps (metaKeyObj nm ns flag)) = some (dumps (.pyInt (N : Int))) := by
    dsimp only
    rw [if_pos rfl]
    exact lmdbGet_put_same _ _ _
  refine ⟨{ meta with data := fun i => if i = p then lmdbPut (meta.data p) (dumps (metaKeyObj nm ns flag)) (dumps (.pyInt (N : Int))) else meta.data i }, ?_⟩
  rw [standaloneTable_present M hp' hpres, Int.toNat_natCast]

set_option maxRecDepth 40000 in
/-- Witness for C2 on a fresh 10-partition registry. -/
theorem C2_meta_registry_witness :
    (0 < (TableState.mk 10 (fun _ => [])).partitions ∧
      dtableGet (TableState.mk 10 (fun _ => [])) (metaKeyObj "a" "b" true) = .ok none) ∧
    (metaTableId = ⟨"__META__", "__META__", "fragments", 10⟩ ∧
      metaKeyObj "a" "b" true = .pyStr (strBytes (tierOf true ++ "." ++ "b" ++ "." ++ "a")) ∧
      ∃ meta', standaloneTable (TableState.mk 10 (fun _ => [])) "a" "b" 4 true = .ok (meta', 4) ∧
        dtableGet meta' (metaKeyObj "a" "b" true) = .ok (some (.pyInt (4 : Int)))) :=
  ⟨⟨by decide, by decide⟩,
   C2_meta_registry (TableState.mk 10 (fun _ => [])) "a" "b" 4 true (by decide) (by decide)⟩

set_option maxRecDepth 40000 in
/-- Witness for C4 on a fresh 10-partition registry (`N = 3`, `M = 5`). -/
theorem C4_first_writer_wins_witness :
    (0 < (TableState.mk 10 (fun _ => [])).partitions ∧
      dtableGet (TableState.mk 10 (fun _ => [])) (metaKeyObj "a" "b" false) = .ok none) ∧
    (∃ meta', standaloneTable (TableState.mk 10 (fun _ => [])) "a" "b" 3 false = .ok (meta', 3) ∧
      ∃ meta'', standaloneTable meta' "a" "b" 5 false = .ok (meta'', 3)) :=
  ⟨⟨by decide, by decide⟩,
   C4_first_writer_wins (TableState.mk 10 (fun _ => [])) "a" "b" 3 5 false (by decide) (by decide)⟩

/-! ### Claim C5: collect is sorted with no duplicate keys -/

theorem partitionCursors_sorted {st : TableState} (hwf : TableWF st) :
    ∀ l ∈ partitionCursors st, PartSorted l := by
  intro l hl
  obtain ⟨p, _, heq⟩ := List.mem_map.mp hl
  rw [← heq]
  exact hwf.sorted p

theorem partitionCursors_disjoint {st : TableState} (hwf : TableWF st) :
    List.Pairwise DisjointKeys (partitionCursors st) := by
  unfold partitionCursors
  refine List.Pairwise.map st.data ?_ (List.pairwise_lt_range st.partitions)
  intro a b hab x hx y hy hxy
  have ha := hwf.routed a x hx
  have hb := hwf.routed b y hy
  rw [hxy] at ha
  rw [ha] at hb
  injection hb with hb
  omega

/-- C5.  On a well-formed table the raw collect stream is strictly
increasing in byte-lexicographic key order; in particular it is sorted
by raw encoded key bytes and contains no two entries with the same key. -/
theorem C5_collect_sorted_nodup (st : TableState) (hwf : TableWF st) :
    List.Pairwise (fun e₁ e₂ => blt e₁.1 e₂.1 = true) (dtableCollectRaw st) ∧
      ((dtableCollectRaw st).map Prod.fst).Nodup := by
  have hpw : List.Pairwise (fun e₁ e₂ => blt e₁.1 e₂.1 = true) (dtableCollectRaw st) :=
    kMergeGo_sorted (totLen (partitionCursors st))
      (partitionCursors_sorted hwf) (partitionCursors_disjoint hwf)
  refine ⟨hpw, ?_⟩
  apply List.pairwise_map.mpr
  apply hpw.imp
  intro a b hab
  exact blt_ne hab

/-- A concrete two-entry single-partition table for the C5 witness. -/
def c5tab : TableState :=
  ⟨1, fun p => if p = 0
        then [(dumps (.pyStr [97]), dumps .pyNone), (dumps (.pyStr [98]), dumps .pyNone)]
        else []⟩

theorem c5tab_wf : TableWF c5tab := by
  refine ⟨?_, ?_, ?_, ?_⟩
  · intro p
    by_cases hp : p = 0
    · subst hp
      simp only [c5tab, if_pos rfl]
      exact List.pairwise_cons.mpr ⟨by intro e he; simp at he; rw [he]; decide,
        List.pairwise_cons.mpr ⟨by intro e he; simp at he, List.Pairwise.nil⟩⟩
    · simp [c5tab, hp]
  · intro p e he
    by_cases hp : p = 0
    · subst hp
      show hashPartN e.1 1 = .ok 0
      simp only [c5tab, if_pos rfl] at he
      cases he with
      | head => exact hashPartN_one _
      | tail _ h2 =>
        cases h2 with
        | head => exact hashPartN_one _
        | tail _ h3 => cases h3
    · simp [c5tab, hp] at he
  · intro p hp
    have h1 : (1 : Nat) ≤ p := hp
    have : p ≠ 0 := by omega
    simp [c5tab, this]
  · intro p e he
    by_cases hp : p = 0
    · subst hp
      simp only [c5tab, if_pos rfl] at he
      cases he with
      | head => exact ⟨.pyStr [97], .pyNone, rfl⟩
      | tail _ h2 =>
        cases h2 with
        | head => exact ⟨.pyStr [98], .pyNone, rfl⟩
        | tail _ h3 => cases h3
    · simp [c5tab, hp] at he

/-- Witness for C5 on the concrete table. -/
theorem C5_collect_sorted_nodup_witness :
    TableWF c5tab ∧
    (List.Pairwise (fun e₁ e₂ => blt e₁.1 e₂.1 = true) (dtableCollectRaw c5tab) ∧
      ((dtableCollectRaw c5tab).map Prod.fst).Nodup) :=
  ⟨c5tab_wf, C5_collect_sorted_nodup c5tab c5tab_wf⟩

/-! ### Claim C9: take with non-positive n, and first on an empty table -/

/-- C9.  `take(n)` with `n ≤ 0` behaves as `take(1)`: it equals
`take(1)`, on a non-empty table it returns exactly the first entry of
the collect stream (never an empty list), and `first()` on an empty
table returns `None`. -/
theorem C9_take_clamp_first (st : TableState) (hwf : TableWF st) (n : Int) (hn : n ≤ 0) :
    dtableTake st n = dtableTake st 1 ∧
    (∀ p₀, p₀ < st.partitions → st.data p₀ ≠ [] →
      ∃ eraw rest, dtableCollectRaw st = eraw :: rest ∧
        ∃ e, decodeEntry eraw = .ok e ∧ dtableTake st n = .ok [e]) ∧
    ((∀ p, st.data p = []) → dtableFirst st = .ok none) := by
  have htake1 : dtableTake st n = dtableTake st 1 := by
    unfold dtableTake
    rw [if_pos hn, if_neg (by norm_num)]
  refine ⟨htake1, ?_, ?_⟩
  · intro p₀ hp₀ hne
    have hmem : st.data p₀ ∈ partitionCursors st :=
      List.mem_map.mpr ⟨p₀, List.mem_range.mpr hp₀, rfl⟩
    obtain ⟨eraw, ls', hpm, hkm⟩ := kMerge_head hmem hne
    refine ⟨eraw, _, hkm, ?_⟩
    obtain ⟨l, hl, hel⟩ := popMin_mem_self hpm
    obtain ⟨p, _, heq⟩ := List.mem_map.mp hl
    rw [← heq] at hel
    obtain ⟨k, v, hkv⟩ := hwf.coded p eraw hel
    refine ⟨(k, v), ?_, ?_⟩
    · rw [hkv]
      simp [decodeEntry, loads_dumps]
    · rw [htake1]
      unfold dtableTake dtableCollectRaw
      rw [if_neg (by norm_num)]
      rw [hkm]
      show ((eraw :: kMergeGo (totLen (partitionCursors st) - 1) ls').take 1).mapM decodeEntry
        = Except.ok [(k, v)]
      rw [List.take_cons, List.take_zero]
      rw [List.mapM_cons]
      rw [hkv]
      simp only [decodeEntry, loads_dumps]
      rfl
      exact Nat.one_pos
  · intro hempty
    have hcur : ∀ l ∈ partitionCursors st, l = [] := by
      intro l hl
      obtain ⟨p, _, heq⟩ := List.mem_map.mp hl
      rw [← heq]
      exact hempty p
    have hraw : dtableCollectRaw st = [] := kMergeGo_all_empty hcur
    unfold dtableFirst
    have h1 : dtableTake st 1 = .ok [] := by
      unfold dtableTake
      rw [if_neg (by norm_num), hraw]
      rfl
    rw [h1, except_bind_ok]

/-- A concrete one-entry table for the C9 witness. -/
def c9tab : TableState :=
  ⟨1, fun p => if p = 0 then [(dumps (.pyInt 5), dumps (.pyStr [120]))] else []⟩

theorem c9tab_wf : TableWF c9tab := by
  refine ⟨?_, ?_, ?_, ?_⟩
  · intro p
    by_cases hp : p = 0
    · subst hp
      simp only [c9tab, if_pos rfl]
      exact List.pairwise_cons.mpr ⟨by intro e he; simp at he, List.Pairwise.nil⟩
    · simp [c9tab, hp]
  · intro p e he
    by_cases hp : p = 0
    · subst hp
      show hashPartN e.1 1 = .ok 0
      simp only [c9tab, if_pos rfl] at he
      cases he with
      | head => exact hashPartN_one _
      | tail _ h2 => cases h2
    · simp [c9tab, hp] at he
  · intro p hp
    have h1 : (1 : Nat) ≤ p := hp
    have : p ≠ 0 := by omega
    simp [c9tab, this]
  · intro p e he
    by_cases hp : p = 0
    · subst hp
      simp only [c9tab, if_pos rfl] at he
      cases he with
      | head => exact ⟨.pyInt 5, .pyStr [120], rfl⟩
      | tail _ h2 => cases h2
    · simp [c9tab, hp] at he

/-- A concrete empty table for the C9 witness. -/
def c9empty : TableState := ⟨1, fun _ => []⟩

theorem c9empty_wf : TableWF c9empty :=
  ⟨fun _ => List.Pairwise.nil,
   fun p e he => absurd he (by simp [c9empty]),
   fun _ _ => rfl,
   fun p e he => absurd he (by simp [c9empty])⟩

set_option maxRecDepth 40000 in
/-- Witness for C9: `take(-2)` on a one-entry table and `first()` on an
empty table. -/
theorem C9_take_clamp_first_witness :
    ((-2 : Int) ≤ 0 ∧ 0 < c9tab.partitions ∧ c9tab.data 0 ≠ []) ∧
    (∃ eraw rest, dtableCollectRaw c9tab = eraw :: rest ∧
      ∃ e, decodeEntry eraw = .ok e ∧ dtableTake c9tab (-2) = .ok [e]) ∧
    dtableFirst c9empty = .ok none :=
  ⟨⟨by norm_num, by decide, by decide⟩,
   (C9_take_clamp_first c9tab c9tab_wf (-2) (by norm_num)).2.1 0 (by decide) (by decide),
   (C9_take_clamp_first c9empty c9empty_wf (-2) (by norm_num)).2.2 (fun _ => rfl)⟩

/-! ### Claim C6: put_all commits all transactions or aborts all -/

/-- C6.  `put_all` opens one write transaction per partition, routes
each entry by hash; when some entry fails it breaks and aborts every
partition transaction, leaving every partition's contents untouched;
when every entry is processed it commits every transaction, and a key
recorded with a single value in the batch becomes readable. -/
theorem C6_putAll_all_or_nothing (st : TableState)
    (kvList : List (Except String (PyObj × PyObj))) (h : 0 < st.partitions) :
    ((∃ msg, Except.error msg ∈ kvList) →
        ∀ p, (dtablePutAll st kvList).data p = st.data p) ∧
    ((∀ it ∈ kvList, ∃ kv, it = .ok kv) →
        (∀ p, p < st.partitions →
            (dtablePutAll st kvList).data p =
              (putAllLoop st.partitions kvList st.data true).1 p) ∧
        (∀ k v : PyObj, .ok (k, v) ∈ kvList →
            (∀ k' v', .ok (k', v') ∈ kvList → dumps k' = dumps k → dumps v' = dumps v) →
            dtableGet (dtablePutAll st kvList) k = .ok (some v))) := by
  constructor
  · intro herr p
    have hflag := putAllLoop_error st.partitions kvList st.data true herr
    simp only [dtablePutAll, hflag]
    by_cases hp : p < st.partitions <;> simp [hp]
  · intro hok
    have hflag := putAllLoop_ok h kvList st.data true hok
    have hcommit : ∀ p, p < st.partitions →
        (dtablePutAll st kvList).data p =
          (putAllLoop st.partitions kvList st.data true).1 p := by
      intro p hp
      simp only [dtablePutAll, hflag]
      simp [hp]
    refine ⟨hcommit, ?_⟩
    intro k v hmem hsame
    obtain ⟨pk, hpk, hpkN⟩ := hashPartN_range (dumps k) h
    have hp' : hashPartN (dumps k) (dtablePutAll st kvList).partitions = .ok pk := hpk
    rw [dtableGet_eval hp']
    rw [hcommit pk hpkN]
    rw [putAllLoop_get h hpk hok hmem hsame]
    dsimp only
    rw [loads_dumps]

set_option maxRecDepth 40000 in
/-- Witness for C6: a failing batch leaves the table unchanged; an
all-ok batch makes its entry readable. -/
theorem C6_putAll_all_or_nothing_witness :
    (0 < (TableState.mk 1 (fun _ => [])).partitions ∧
      (∃ msg, Except.error msg ∈ ([.error "boom"] : List (Except String (PyObj × PyObj))))) ∧
    (dtablePutAll (TableState.mk 1 (fun _ => [])) [.error "boom"]).data 0 = [] ∧
    dtableGet (dtablePutAll (TableState.mk 1 (fun _ => [])) [.ok (.pyNone, .pyInt 9)])
      .pyNone = .ok (some (.pyInt 9)) :=
  ⟨⟨by decide, ⟨"boom", by decide⟩⟩,
   (C6_putAll_all_or_nothing (TableState.mk 1 (fun _ => [])) [.error "boom"]
      (by decide)).1 ⟨"boom", by decide⟩ 0,
   (C6_putAll_all_or_nothing (TableState.mk 1 (fun _ => [])) [.ok (.pyNone, .pyInt 9)]
      (by decide)).2
     (fun it hit => ⟨(.pyNone, .pyInt 9), by rw [List.mem_singleton] at hit; exact hit⟩)
     |>.2 .pyNone (.pyInt 9) (by decide)
     (fun k' v' h' _ => by
       rw [List.mem_singleton] at h'
       injection h' with h'
       injection h' with h1 h2
       rw [h2])⟩

/-! ### Claim C8: sample determinism -/

/-- C8.  The per-partition output of `sample(fraction, seed)` is a
deterministic function of the seed and the partition's entry sequence:
tables agreeing on a partition's contents (and on the partition count)
produce identical sample output in that partition; in particular two
runs on the same table agree everywhere. -/
theorem C8_sample_deterministic (st₁ st₂ : TableState) (fraction : ℚ) (seed : Nat)
    (p : Nat) (hN : st₁.partitions = st₂.partitions) (hdata : st₁.data p = st₂.data p) :
    (dtableSample st₁ fraction seed).data p = (dtableSample st₂ fraction seed).data p := by
  simp only [dtableSample, hN, hdata]

/-- Witness for C8 at a concrete one-entry table, `fraction = 1/2`,
`seed = 42`. -/
theorem C8_sample_deterministic_witness :
    (c9tab.partitions = c9tab.partitions ∧ c9tab.data 0 = c9tab.data 0) ∧
    (dtableSample c9tab (1 / 2) 42).data 0 = (dtableSample c9tab (1 / 2) 42).data 0 :=
  ⟨⟨rfl, rfl⟩, C8_sample_deterministic c9tab c9tab (1 / 2) 42 0 rfl rfl⟩

/-! ### Claim C10: union without a merge function keeps the left value -/

theorem unionPass1_ok {f : PyObj → PyObj → PyObj} {right : List Entry}
    (hrv : ∀ e ∈ right, ∃ v : PyObj, e.2 = dumps v) :
    ∀ {left : List Entry}, (∀ e ∈ left, ∃ v : PyObj, e.2 = dumps v) →
      ∀ dst, ∃ out, unionPass1 f right left dst = .ok out := by
  intro left
  induction left with
  | nil => intro _ dst; exact ⟨dst, rfl⟩
  | cons e rest ih =>
    intro hlv dst
    obtain ⟨kb, lvb⟩ := e
    rw [unionPass1]
    cases hg : lmdbGet right kb with
    | none => exact ih (fun e he => hlv e (List.mem_cons_of_mem _ he)) _
    | some rvb =>
      obtain ⟨lv, hlv'⟩ := hlv (kb, lvb) (List.mem_cons_self _ _)
      obtain ⟨rv, hrv'⟩ := hrv (kb, rvb) (lmdbGet_mem hg)
      have hlv2 : lvb = dumps lv := hlv'
      have hrv2 : rvb = dumps rv := hrv'
      dsimp only
      rw [hlv2, hrv2, loads_dumps, loads_dumps]
      exact ih (fun e he => hlv e (List.mem_cons_of_mem _ he)) _

theorem unionPass1_preserve {f : PyObj → PyObj → PyObj} {right : List Entry}
    {kb₀ w : Bytes} :
    ∀ {left : List Entry} {dst out : List Entry}, (∀ e ∈ left, e.1 ≠ kb₀) →
      lmdbGet dst kb₀ = some w → unionPass1 f right left dst = .ok out →
      lmdbGet out kb₀ = some w := by
  intro left
  induction left with
  | nil =>
    intro dst out _ hget hrun
    rw [unionPass1] at hrun
    injection hrun with hrun
    rw [← hrun]
    exact hget
  | cons e rest ih =>
    intro dst out hne hget hrun
    obtain ⟨kb, lvb⟩ := e
    have hkb : kb ≠ kb₀ := hne (kb, lvb) (List.mem_cons_self _ _)
    rw [unionPass1] at hrun
    cases hg : lmdbGet right kb with
    | none =>
      rw [hg] at hrun
      dsimp only at hrun
      refine ih (fun e he => hne e (List.mem_cons_of_mem _ he)) ?_ hrun
      rw [lmdbGet_put_other _ _ _ _ (fun he => hkb he.symm)]
      exact hget
    | some rvb =>
      rw [hg] at hrun
      dsimp only at hrun
      cases hl : loads lvb with
      | none => rw [hl] at hrun; simp at hrun
      | some lv =>
        rw [hl] at hrun
        cases hl2 : loads rvb with
        | none => rw [hl2] at hrun; simp at hrun
        | some rv =>
          rw [hl2] at hrun
          dsimp only at hrun
          refine ih (fun e he => hne e (List.mem_cons_of_mem _ he)) ?_ hrun
          rw [lmdbGet_put_other _ _ _ _ (fun he => hkb he.symm)]
          exact hget

theorem unionPass1_get {f : PyObj → PyObj → PyObj} {right : List Entry}
    {kb₀ lvb₀ rvb₀ : Bytes} {lv rv : PyObj}
    (hr : lmdbGet right kb₀ = some rvb₀)
    (hlv : loads lvb₀ = some lv) (hrv : loads rvb₀ = some rv) :
    ∀ {left : List Entry} {dst out : List Entry}, PartSorted left →
      (kb₀, lvb₀) ∈ left → unionPass1 f right left dst = .ok out →
      lmdbGet out kb₀ = some (dumps (f lv rv)) := by
  intro left
  induction left with
  | nil => intro dst out _ hmem _; simp at hmem
  | cons e rest ih =>
    intro dst out hs hmem hrun
    obtain ⟨kb, lvb⟩ := e
    obtain ⟨hhead, htail⟩ := List.pairwise_cons.mp hs
    rw [unionPass1] at hrun
    cases hmem with
    | head =>
      rw [hr] at hrun
      dsimp only at hrun
      rw [hlv, hrv] at hrun
      dsimp only at hrun
      refine unionPass1_preserve ?_ ?_ hrun
      · intro e he
        exact fun heq => (blt_ne (hhead e he)) heq.symm
      · exact lmdbGet_put_same _ _ _
    | tail _ hmem' =>
      have hkb : kb ≠ kb₀ := by
        intro heq
        subst heq
        exact (blt_ne (hhead (kb, lvb₀) hmem')) rfl
      cases hg : lmdbGet right kb with
      | none =>
        rw [hg] at hrun
        dsimp only at hrun
        exact ih htail hmem' hrun
      | some rvb =>
        rw [hg] at hrun
        dsimp only at hrun
        cases hl : loads lvb with
        | none => rw [hl] at hrun; simp at hrun
        | some lv' =>
          rw [hl] at hrun
          cases hl2 : loads rvb with
          | none => rw [hl2] at hrun; simp at hrun
          | some rv' =>
            rw [hl2] at hrun
            dsimp only at hrun
            exact ih htail hmem' hrun

theorem unionPass2_preserve {kb₀ w : Bytes} :
    ∀ {right dst : List Entry}, lmdbGet dst kb₀ = some w →
      lmdbGet (unionPass2 right dst) kb₀ = some w := by
  intro right
  induction right with
  | nil => intro dst hget; exact hget
  | cons e rest ih =>
    intro dst hget
    obtain ⟨kb, rvb⟩ := e
    rw [unionPass2]
    cases hg : lmdbGet dst kb with
    | none =>
      have hkb : kb ≠ kb₀ := by
        intro heq; subst heq; rw [hget] at hg; exact Option.noConfusion hg
      dsimp only
      apply ih
      rw [lmdbGet_put_other _ _ _ _ (fun he => hkb he.symm)]
      exact hget
    | some w' =>
      dsimp only
      exact ih hget

theorem doUnionPartition_get (f : PyObj → PyObj → PyObj) {left right : List Entry}
    {kb₀ lvb₀ rvb₀ : Bytes} {lv rv : PyObj}
    (hs : PartSorted left) (hmem : (kb₀, lvb₀) ∈ left)
    (hr : lmdbGet right kb₀ = some rvb₀)
    (hlv : loads lvb₀ = some lv) (hrv : loads rvb₀ = some rv)
    (hlcoded : ∀ e ∈ left, ∃ v : PyObj, e.2 = dumps v)
    (hrcoded : ∀ e ∈ right, ∃ v : PyObj, e.2 = dumps v) :
    ∃ out, doUnionPartition f left right = .ok out ∧
      lmdbGet out kb₀ = some (dumps (f lv rv)) := by
  obtain ⟨dst, hdst⟩ := unionPass1_ok hrcoded hlcoded []
  refine ⟨unionPass2 right dst, ?_, ?_⟩
  · unfold doUnionPartition
    rw [hdst, except_bind_ok]
  · exact unionPass2_preserve (unionPass1_get hr hlv hrv hs hmem hdst)

theorem mapM_ok_of_forall {α : Type} :
    ∀ {l : List Nat} {f : Nat → Except String α},
      (∀ x ∈ l, ∃ a, f x = .ok a) →
      ∃ out, l.mapM f = .ok out ∧ out.length = l.length ∧
        (∀ (i x : Nat) (a : α), l[i]? = some x → f x = .ok a → out[i]? = some a) := by
  intro l
  induction l with
  | nil =>
    intro f _
    refine ⟨[], by simp [List.mapM_nil]; rfl, rfl, ?_⟩
    intro i x a hx
    simp at hx
  | cons x l ih =>
    intro f hall
    obtain ⟨a, ha⟩ := hall x (List.mem_cons_self _ _)
    obtain ⟨out, hmo, hlen, hcorr⟩ := ih (fun y hy => hall y (List.mem_cons_of_mem _ hy))
    refine ⟨a :: out, ?_, by simp [hlen], ?_⟩
    · rw [List.mapM_cons, ha, except_bind_ok, hmo, except_bind_ok]
      rfl
    · intro i y b hy hb
      cases i with
      | zero =>
        simp only [List.getElem?_cons_zero, Option.some.injEq] at hy
        subst hy
        rw [hb] at ha
        injection ha with ha
        rw [List.getElem?_cons_zero, ha]
      | succ i =>
        rw [List.getElem?_cons_succ] at hy ⊢
        exact hcorr i y b hy hb

theorem unionAligned_get {f : PyObj → PyObj → PyObj} {st₁ st₂ : TableState}
    (hall : ∀ p, p < st₁.partitions →
      ∃ out, doUnionPartition f (st₁.data p) (st₂.data p) = .ok out) :
    ∃ stu, unionAligned f st₁ st₂ = .ok stu ∧ stu.partitions = st₁.partitions ∧
      ∀ p out, p < st₁.partitions →
        doUnionPartition f (st₁.data p) (st₂.data p) = .ok out → stu.data p = out := by
  have hall' : ∀ x ∈ List.range st₁.partitions,
      ∃ a, doUnionPartition f (st₁.data x) (st₂.data x) = .ok a :=
    fun x hx => hall x (List.mem_range.mp hx)
  obtain ⟨parts, hm, hlen, hcorr⟩ := mapM_ok_of_forall hall'
  refine ⟨{ partitions := st₁.partitions, data := fun p => parts.getD p [] }, ?_, rfl, ?_⟩
  · unfold unionAligned
    rw [hm]
  · intro p out hp hout
    have hr : (List.range st₁.partitions)[p]? = some p := by
      rw [List.getElem?_range hp]
    have hthis := hcorr p p out hr hout
    show parts.getD p [] = out
    rw [List.getD_eq_getElem?_getD, hthis]
    rfl

theorem TableWF.coded_snd {st : TableState} (hwf : TableWF st) (p : Nat) :
    ∀ e ∈ st.data p, ∃ v : PyObj, e.2 = dumps v := by
  intro e he
  obtain ⟨k', v', hkv⟩ := hwf.coded p e he
  exact ⟨v', by rw [hkv]⟩

/-- C10.  With equal partition counts, `union` called without an
explicit merge function (default `lambda v1, v2: v1`) keeps the left
value on overlap: for any key present in both tables the output value is
the left table's value. -/
theorem C10_union_keeps_left (st₁ st₂ : TableState) (hwf₁ : TableWF st₁)
    (hwf₂ : TableWF st₂) (hN : st₁.partitions = st₂.partitions)
    (hpos : 0 < st₁.partitions) (k v₁ v₂ : PyObj)
    (h₁ : dtableGet st₁ k = .ok (some v₁)) (h₂ : dtableGet st₂ k = .ok (some v₂)) :
    ∃ stu, dtableUnion st₁ st₂ unionDefaultFunc = .ok stu ∧
      dtableGet stu k = .ok (some v₁) := by
  have hall : ∀ p, p < st₁.partitions →
      ∃ out, doUnionPartition unionDefaultFunc (st₁.data p) (st₂.data p) = .ok out := by
    intro p _
    obtain ⟨dst, hdst⟩ := unionPass1_ok (hwf₂.coded_snd p) (hwf₁.coded_snd p) []
    exact ⟨unionPass2 (st₂.data p) dst, by
      unfold doUnionPartition
      rw [hdst, except_bind_ok]⟩
  obtain ⟨stu, hstu, hparts, hdata⟩ := unionAligned_get hall
  obtain ⟨pk, hpk, hpkN⟩ := hashPartN_range (dumps k) hpos
  obtain ⟨w₁, hw₁, hlv⟩ := dtableGet_inv hpk h₁
  have hpk₂ : hashPartN (dumps k) st₂.partitions = .ok pk := by rw [← hN]; exact hpk
  obtain ⟨w₂, hw₂, hrv⟩ := dtableGet_inv hpk₂ h₂
  have hmem₁ : (dumps k, w₁) ∈ st₁.data pk := lmdbGet_mem hw₁
  obtain ⟨out, hout, hgetout⟩ := doUnionPartition_get unionDefaultFunc
    (hwf₁.sorted pk) hmem₁ hw₂ hlv hrv (hwf₁.coded_snd pk) (hwf₂.coded_snd pk)
  refine ⟨stu, ?_, ?_⟩
  · unfold dtableUnion
    rw [if_neg (fun hne => hne hN.symm)]
    exact hstu
  · have hp' : hashPartN (dumps k) stu.partitions = .ok pk := by rw [hparts]; exact hpk
    rw [dtableGet_eval hp', hdata pk out hpkN hout, hgetout]
    dsimp only
    rw [loads_dumps]
    rfl

/-- Concrete left table for the C10 witness (one partition). -/
def c10L : TableState :=
  ⟨1, fun p => if p = 0 then [(dumps (.pyStr [97]), dumps (.pyInt 1))] else []⟩

/-- Concrete right table for the C10 witness (one partition). -/
def c10R : TableState :=
  ⟨1, fun p => if p = 0 then [(dumps (.pyStr [97]), dumps (.pyInt 2))] else []⟩

theorem c10L_wf : TableWF c10L := by
  refine ⟨?_, ?_, ?_, ?_⟩
  · intro p
    by_cases hp : p = 0
    · subst hp
      simp only [c10L, if_pos rfl]
      exact List.pairwise_cons.mpr ⟨by intro e he; simp at he, List.Pairwise.nil⟩
    · simp [c10L, hp]
  · intro p e he
    by_cases hp : p = 0
    · subst hp
      show hashPartN e.1 1 = .ok 0
      simp only [c10L, if_pos rfl] at he
      cases he with
      | head => exact hashPartN_one _
      | tail _ h2 => cases h2
    · simp [c10L, hp] at he
  · intro p hp
    have h1 : (1 : Nat) ≤ p := hp
    have : p ≠ 0 := by omega
    simp [c10L, this]
  · intro p e he
    by_cases hp : p = 0
    · subst hp
      simp only [c10L, if_pos rfl] at he
      cases he with
      | head => exact ⟨.pyStr [97], .pyInt 1, rfl⟩
      | tail _ h2 => cases h2
    · simp [c10L, hp] at he

theorem c10R_wf : TableWF c10R := by
  refine ⟨?_, ?_, ?_, ?_⟩
  · intro p
    by_cases hp : p = 0
    · subst hp
      simp only [c10R, if_pos rfl]
      exact List.pairwise_cons.mpr ⟨by intro e he; simp at he, List.Pairwise.nil⟩
    · simp [c10R, hp]
  · intro p e he
    by_cases hp : p = 0
    · subst hp
      show hashPartN e.1 1 = .ok 0
      simp only [c10R, if_pos rfl] at he
      cases he with
      | head => exact hashPartN_one _
      | tail _ h2 => cases h2
    · simp [c10R, hp] at he
  · intro p hp
    have h1 : (1 : Nat) ≤ p := hp
    have : p ≠ 0 := by omega
    simp [c10R, this]
  · intro p e he
    by_cases hp : p = 0
    · subst hp
      simp only [c10R, if_pos rfl] at he
      cases he with
      | head => exact ⟨.pyStr [97], .pyInt 2, rfl⟩
      | tail _ h2 => cases h2
    · simp [c10R, hp] at he

set_option maxRecDepth 40000 in
/-- Witness for C10: both tables hold key `"a"`, left value 1, right
value 2; the union keeps 1. -/
theorem C10_union_keeps_left_witness :
    (c10L.partitions = c10R.partitions ∧ 0 < c10L.partitions ∧
      dtableGet c10L (.pyStr [97]) = .ok (some (.pyInt 1)) ∧
      dtableGet c10R (.pyStr [97]) = .ok (some (.pyInt 2))) ∧
    (∃ stu, dtableUnion c10L c10R unionDefaultFunc = .ok stu ∧
      dtableGet stu (.pyStr [97]) = .ok (some (.pyInt 1))) :=
  ⟨⟨rfl, by decide, by decide, by decide⟩,
   C10_union_keeps_left c10L c10R c10L_wf c10R_wf rfl (by decide)
     (.pyStr [97]) (.pyInt 1) (.pyInt 2) (by decide) (by decide)⟩

/-! ### Claim C1: subtractByKey under differing partition counts

The spec says the side with fewer entries is rematerialised at the other
side's partition count and the **same operator is retried**, so that the
output keys are `keys(L) \ keys(R)`.  The source's realign branch for a
smaller-or-equal right side calls `self.union(other.save_as(...))` —
`union`, not `subtractByKey` (eggroll.py line 661) — so the output keys
become `keys(L) ∪ keys(R)`.  The spec itself flags this as a likely bug
(§9).  The theorem below evaluates the embedded code at a two-key left
table (2 partitions) and a one-key right table (1 partition): the right
side has fewer entries, is rematerialised at 2 partitions, and the
operator then *unions*, leaving key `"a"` — a key of `R` — in the
output, where the claim demands `keys(L) \ keys(R) = {"b"}`. -/

/-- Left table for the C1 failing input: two partitions holding the keys
`"a"` (partition 0) and `"b"` (partition 1), their hash partitions. -/
def c1L : TableState :=
  ⟨2, fun p => if p = 0 then [(dumps (.pyStr [97]), dumps .pyNone)]
       else if p = 1 then [(dumps (.pyStr [98]), dumps .pyNone)] else []⟩

/-- Right table for the C1 failing input: one partition holding `"a"`. -/
def c1R : TableState :=
  ⟨1, fun p => if p = 0 then [(dumps (.pyStr [97]), dumps .pyNone)] else []⟩

set_option maxRecDepth 200000 in
/-- C1 (code bug).  `subtractByKey(c1L, c1R)` outputs the keys
`["a", "b"]` — the union of both key sets — although `"a"` is a key of
`c1R` and the claimed result `keys(L) \ keys(R)` is `["b"]` alone. -/
theorem C1_subtractByKey_bug :
    (dtableSubtractByKey c1L c1R).map (fun st => (dtableCollectRaw st).map Prod.fst) =
      .ok [dumps (.pyStr [97]), dumps (.pyStr [98])] ∧
    (dtableCollectRaw c1R).map Prod.fst = [dumps (.pyStr [97])] ∧
    dtableCount c1R ≤ dtableCount c1L ∧ c1R.partitions ≠ c1L.partitions := by
  refine ⟨by decide, by decide, by decide, by decide⟩
